import Mathlib

/-!
Shallow embedding of the `annofilter` tool (annofilter.c) of tkalvas/textutils.

The C program reads chunks from a file descriptor into a flat buffer, scans
the buffer byte by byte classifying UTF-8 defects, and writes the original
bytes to stdout interleaved with terminal markup.  We model:

* bytes as `Nat` (the C code masks every access with `& 255`, which we mirror
  with `% 256`);
* the global emitter/scanner state (`buffer_out`, the three `last_byte_*`
  flags, `current_condition`) as a structure `St`;
* everything written to stdout as a list of `Item`s kept in emission order
  (`Item.markup c` for a `printf("%s", markup[c])`, `Item.raw b` for one byte
  written by `fwrite`, `Item.esc b` for a `printf("<%02x>", b)` escape,
  `Item.marker` for the single space written by `bad_marker`); `render`
  flattens an item list to the exact byte stream on stdout;
* the scan loop `consume` as structural recursion over the not yet scanned
  suffix of the buffer, with the absolute buffer and the loop index `i`
  carried along: the C guard `i + k >= buffer_pos` (too few bytes before
  `filled_end`) corresponds exactly to the suffix having at most `k`
  elements, and the retained suffix of `early_out` is that suffix.
-/

namespace Annofilter

/-- `enum condition` of annofilter.c. -/
inductive Cond where
  | OK
  | CONTROL
  | ENCODING
  | OVERLONG
  | HIGH_CONTROL
  | TRAILING_WHITESPACE
deriving DecidableEq, Repr

/-- One thing written to stdout: a markup escape string, a raw byte copied
from the buffer by `fwrite`, a `<%02x>` escape of a defect byte, or the
single-space zero-width marker of `bad_marker`. -/
inductive Item where
  | markup (c : Cond)
  | raw (b : Nat)
  | esc (b : Nat)
  | marker
deriving DecidableEq, Repr

/-- The mutable globals of annofilter.c (minus the buffer contents, which we
pass around explicitly), plus the accumulated stdout stream. -/
structure St where
  buffer_out : Nat
  last_byte_nl : Bool
  last_byte_cr : Bool
  last_byte_whitespace : Bool
  current_condition : Cond
  out : List Item
deriving DecidableEq, Repr

/-- Initial global state at program start. -/
def initSt : St :=
  { buffer_out := 0, last_byte_nl := false, last_byte_cr := false,
    last_byte_whitespace := false, current_condition := .OK, out := [] }

/-- Append one item to the stdout stream. -/
def emit (s : St) (it : Item) : St := { s with out := s.out ++ [it] }

/-- The `"\033[0m"` reset emitted by `flush_output` when the current
condition is not `OK` (factored out so lemmas can refer to it). -/
def okReset (c : Cond) : List Item :=
  if c ≠ Cond.OK then [Item.markup .OK] else []

/-- `flush_output(index)`: if bytes `[buffer_out, index)` are pending, first
emit the `OK` markup when the current condition is not `OK`, then write the
pending bytes raw, set the condition to `OK` and advance `buffer_out`. -/
def flush_output (buf : List Nat) (index : Nat) (s : St) : St :=
  if s.buffer_out < index then
    { s with
      out := s.out ++ okReset s.current_condition
          ++ ((buf.drop s.buffer_out).take (index - s.buffer_out)).map Item.raw,
      current_condition := .OK,
      buffer_out := index }
  else s

/-- `bad_preface(cond, index)`: flush pending bytes before `index`, emit the
markup of `cond` when it differs from the current condition, set it. -/
def bad_preface (buf : List Nat) (cond : Cond) (index : Nat) (s : St) : St :=
  let s := flush_output buf index s
  let s := if cond ≠ s.current_condition then emit s (.markup cond) else s
  { s with current_condition := cond }

/-- `bad_byte(cond, index)`: preface, then print the byte at `index` as a
`<%02x>` escape and advance `buffer_out` past it. -/
def bad_byte (buf : List Nat) (cond : Cond) (index : Nat) (s : St) : St :=
  let s := bad_preface buf cond index s
  let s := emit s (.esc (buf.getD index 0 % 256))
  { s with buffer_out := index + 1 }

/-- `bad_bytes(count, cond, index)`: `bad_byte` on `count` consecutive
indices starting at `index`. -/
def bad_bytes (buf : List Nat) : Nat → Cond → Nat → St → St
  | 0, _, _, s => s
  | n + 1, cond, index, s =>
      bad_bytes buf n cond (index + 1) (bad_byte buf cond index s)

/-- `bad_marker(cond, index)`: preface, then print a single space (the
zero-width marker); `buffer_out` is not advanced. -/
def bad_marker (buf : List Nat) (cond : Cond) (index : Nat) (s : St) : St :=
  let s := bad_preface buf cond index s
  emit s .marker

/-- `early_out(index)`: flush pending bytes before `index`, then retain the
unconsumed suffix (the `memmove` to offset 0) and reset `buffer_out`.
`leftover` is that suffix, i.e. `buf.drop index`. -/
def early_out (buf : List Nat) (index : Nat) (leftover : List Nat) (s : St) :
    St × List Nat :=
  ({ flush_output buf index s with buffer_out := 0 }, leftover)

/-- The residual-state update at the bottom of the `consume` loop body
(lines 239-246): set `last_byte_nl`, emit the trailing-whitespace marker
when a newline follows blank, set `last_byte_cr`, update
`last_byte_whitespace` unless the byte is a carriage return. -/
def residual (buf : List Nat) (ch i : Nat) (s : St) : St :=
  let s := { s with last_byte_nl := ch == 10 }
  let s := if ch == 10 && s.last_byte_whitespace then
             bad_marker buf .TRAILING_WHITESPACE i s
           else s
  let s := { s with last_byte_cr := ch == 13 }
  if ch != 13 then { s with last_byte_whitespace := ch == 9 || ch == 32 }
  else s

/-- The `for` loop of `consume()`.  `rem` is the suffix `buf.drop i` of the
buffer still to scan; the C guard `i + k >= buffer_pos` holds exactly when
`rem` has at most `k` elements, which the `match` on `rem` decides.  Returns
the final state together with the retained suffix (`buffer[0, buffer_pos)`
after the `memmove`, empty when the loop ran to completion). -/
def consumeLoop (buf : List Nat) : List Nat → Nat → St → St × List Nat
  | [], _, s =>
      ({ flush_output buf buf.length s with buffer_out := 0 }, [])
  | b :: rest, i, s =>
      let ch := b % 256
      if ch &&& 128 = 0 then
        let s := if ch < 32 ∧ ch ≠ 10 ∧ ch ≠ 9 then bad_byte buf .CONTROL i s
                 else s
        consumeLoop buf rest (i + 1) (residual buf ch i s)
      else if ch &&& 64 = 0 then
        consumeLoop buf rest (i + 1) (residual buf ch i (bad_byte buf .ENCODING i s))
      else if ch &&& 32 = 0 then
        if rest.length < 1 then early_out buf i (b :: rest) s
        else
          let ch1 := rest.getD 0 0 % 256
          if ch1 &&& 192 ≠ 128 then
            consumeLoop buf rest (i + 1) (bad_byte buf .ENCODING i s)
          else
            let u := ((ch &&& 31) <<< 6) ||| (ch1 &&& 63)
            let s := if u < 128 then bad_bytes buf 2 .OVERLONG i s
                     else if u < 160 then bad_bytes buf 2 .HIGH_CONTROL i s
                     else s
            consumeLoop buf rest (i + 1) (residual buf ch i s)
      else if ch &&& 16 = 0 then
        if rest.length < 2 then early_out buf i (b :: rest) s
        else
          let ch1 := rest.getD 0 0 % 256
          let ch2 := rest.getD 1 0 % 256
          if ch1 &&& 192 ≠ 128 ∨ ch2 &&& 192 ≠ 128 then
            consumeLoop buf rest (i + 1) (bad_byte buf .ENCODING i s)
          else
            let u := ((ch &&& 15) <<< 12) ||| ((ch1 &&& 63) <<< 6) ||| (ch2 &&& 63)
            let s := if u < 2048 then bad_bytes buf 3 .OVERLONG i s else s
            consumeLoop buf rest (i + 1) (residual buf ch i s)
      else if ch < 245 then
        if rest.length < 3 then early_out buf i (b :: rest) s
        else
          let ch1 := rest.getD 0 0 % 256
          let ch2 := rest.getD 1 0 % 256
          let ch3 := rest.getD 2 0 % 256
          if ch1 &&& 192 ≠ 128 ∨ ch2 &&& 192 ≠ 128 ∨ ch3 &&& 192 ≠ 128 then
            consumeLoop buf rest (i + 1) (bad_byte buf .ENCODING i s)
          else
            let u := ((ch &&& 15) <<< 18) ||| ((ch1 &&& 63) <<< 12)
                 ||| ((ch2 &&& 63) <<< 6) ||| (ch3 &&& 63)
            let s := if u < 65536 then bad_bytes buf 4 .OVERLONG i s else s
            consumeLoop buf rest (i + 1) (residual buf ch i s)
      else
        consumeLoop buf rest (i + 1) (bad_byte buf .ENCODING i s)

/-- `consume()`: scan the whole buffer from index 0. -/
def consume (buf : List Nat) (s : St) : St × List Nat :=
  consumeLoop buf buf 0 s

/-- The read loop of `run_fd`: each successful read appends its bytes after
the retained suffix and triggers a `consume` pass.  Returns the state and
the retained suffix when the reads are exhausted (`read` returned 0). -/
def chunksLoop : List (List Nat) → List Nat → St → St × List Nat
  | [], buf, s => (s, buf)
  | c :: rest, buf, s =>
      let p := consume (buf ++ c) s
      chunksLoop rest p.2 p.1

/-- The terminal loop of `run_fd` (lines 262-265): after end-of-stream every
still-buffered byte is reported with `bad_byte(ENCODING, i)`. -/
def terminalLoop (buf : List Nat) : List Nat → Nat → St → St
  | [], _, s => s
  | _ :: rest, i, s => terminalLoop buf rest (i + 1) (bad_byte buf .ENCODING i s)

/-- `run_fd` on a whole input stream, starting from an arbitrary state:
process the chunks delivered by successive reads, then run the terminal
pass on what is left. -/
def runFdFrom (s0 : St) (chunks : List (List Nat)) : St :=
  let p := chunksLoop chunks [] s0
  terminalLoop p.2 p.2 0 p.1

/-- `run_fd` from the initial program state (stdin processed once). -/
def run_fd (chunks : List (List Nat)) : St :=
  runFdFrom initSt chunks

/-- The `markup[]` strings as byte lists: `"\033[0m"` for `OK`,
`"\033[43m"` for `TRAILING_WHITESPACE`, `"\033[41;97m"` for the four other
conditions. -/
def markupBytes : Cond → List Nat
  | .OK => [27, 91, 48, 109]
  | .TRAILING_WHITESPACE => [27, 91, 52, 51, 109]
  | _ => [27, 91, 52, 49, 59, 57, 55, 109]

/-- Lower-case hex digit, as `printf %02x` renders it. -/
def hexDigit (n : Nat) : Nat := if n < 10 then 48 + n else 87 + n

/-- The exact bytes one output item puts on stdout. -/
def renderItem : Item → List Nat
  | .markup c => markupBytes c
  | .raw b => [b % 256]
  | .esc b => [60, hexDigit (b / 16), hexDigit (b % 16), 62]
  | .marker => [32]

/-- The exact stdout byte stream of an item list. -/
def render (out : List Item) : List Nat := (out.map renderItem).flatten

/-! ### Specification-side helpers used only in theorem statements -/

/-- How many bytes the scanner requires for a unit starting with masked byte
`ch` that it treats as a multi-byte lead (the `leading 2/3/4` branches of
`consume`); `none` for the bytes it always handles one at a time. -/
def leadNeeds (ch : Nat) : Option Nat :=
  if ch &&& 128 = 0 then none
  else if ch &&& 64 = 0 then none
  else if ch &&& 32 = 0 then some 2
  else if ch &&& 16 = 0 then some 3
  else if ch < 245 then some 4
  else none

/-- The classifications of the markup transitions of an output, in order. -/
def markupsOf (l : List Item) : List Cond :=
  l.filterMap (fun it => match it with | .markup c => some c | _ => none)

/-- The classification of the last markup transition emitted so far
(`OK` when none was emitted yet: the terminal starts reset). -/
def lastMarkup (l : List Item) : Cond := ((markupsOf l).getLast?).getD .OK

/-- Invariant tying the emitted markup transitions to the emitter state:
consecutive transitions always differ (coalescing), and the active
condition is the classification of the last emitted transition. -/
def MarkupInv (s : St) : Prop :=
  List.Chain' (fun x y => x ≠ y) (markupsOf s.out) ∧
  lastMarkup s.out = s.current_condition

/-- The scanner flags agree between two runs. -/
def FlagsEq (c s : St) : Prop :=
  c.last_byte_nl = s.last_byte_nl ∧ c.last_byte_cr = s.last_byte_cr ∧
  c.last_byte_whitespace = s.last_byte_whitespace

/-- Simulation relation between a run over the whole buffer (state `c`) and
a run over the buffer with its first `d` bytes cut off (state `s`), when the
cut happens at or before both flushed cursors: everything agrees up to the
index shift `d`. -/
def ExactR (d : Nat) (c s : St) : Prop :=
  FlagsEq c s ∧ d ≤ c.buffer_out ∧ s.buffer_out = c.buffer_out - d ∧
  s.current_condition = c.current_condition ∧ s.out = c.out

/-- Simulation relation when the cut run has already flushed (at its
`early_out`) the clean bytes `[c.buffer_out, d)` that the whole run still
holds pending: the cut run's output is ahead by exactly that flush block,
its condition was reset, and its cursor starts at 0. -/
def PendR (d : Nat) (buf : List Nat) (c s : St) : Prop :=
  FlagsEq c s ∧ c.buffer_out < d ∧ s.buffer_out = 0 ∧
  s.current_condition = Cond.OK ∧
  s.out = c.out ++ okReset c.current_condition
        ++ ((buf.drop c.buffer_out).take (d - c.buffer_out)).map Item.raw

/-- Either simulation mode. -/
def SplitR (d : Nat) (buf : List Nat) (c s : St) : Prop :=
  ExactR d c s ∨ PendR d buf c s

/-- Every `OK` markup transition in the list is immediately followed by a raw
byte (in particular the list does not end with an `OK` transition). -/
def okFollowed : List Item → Prop
  | [] => True
  | Item.markup Cond.OK :: rest =>
      (∃ bb, rest.head? = some (Item.raw bb)) ∧ okFollowed rest
  | _ :: rest => okFollowed rest

/-- Forget the `last_byte_cr` flag of a state. -/
def stripCr (s : St) : St := { s with last_byte_cr := false }

/-! ### The I/O error model (claim C9)

`read` either delivers bytes or fails with an `errno`; `errno_printf`
prints one report to stderr (the caller's context message followed by
`strerror(errno)` and the numeric `errno`) and exits with `errno` as the
process status; `main` returns 0 after a normal `run`. -/

/-- One interaction with `read(2)`: a successful read delivering `bytes`,
or a failing read (`read` returned -1) with the given `errno`. -/
inductive ReadEv where
  | chunk (bytes : List Nat)
  | fail (e : Nat)

/-- One stderr report of `errno_printf`: the context message, and the errno
whose `strerror` text and numeric value it prints after the colon. -/
structure Report where
  context : String
  errno : Nat
deriving DecidableEq

/-- `run_fd` including its error path: a failing read calls
`errno_printf("cannot read")`, which reports once and exits with the errno
as the process status (the error value carries the state at failure, the
single report, and the exit status); otherwise the reads are processed
exactly as in `run_fd`. -/
def run_fdE : List ReadEv → List Nat → St → Except (St × Report × Nat) St
  | [], buf, s => .ok (terminalLoop buf buf 0 s)
  | .fail e :: _, _, s => .error (s, ⟨"cannot read", e⟩, e)
  | .chunk c :: rest, buf, s =>
      let p := consume (buf ++ c) s
      run_fdE rest p.2 p.1

/-- Exit status of `main` for a stdin run: 0 on normal completion (`main`
returns 0), the errno of a failed read otherwise. -/
def mainExit (events : List ReadEv) : Nat :=
  match run_fdE events [] initSt with
  | .ok _ => 0
  | .error (_, _, e) => e

/-- The stderr reports of a stdin run: none on normal completion, exactly
the one report of `errno_printf` on a failed read. -/
def stderrReports (events : List ReadEv) : List Report :=
  match run_fdE events [] initSt with
  | .ok _ => []
  | .error (_, r, _) => [r]

/-- `file4read`: when `open` fails with the given errno, `errno_printf`
reports once ("cannot open file ...") and the process exits with that errno;
otherwise the open file descriptor is returned. -/
def file4read (openErr : Option Nat) (fd : Nat) : Except (Report × Nat) Nat :=
  match openErr with
  | some e => .error (⟨"cannot open file", e⟩, e)
  | none => .ok fd

/-! ### Step lemmas: one unfolding of the scan loop per branch of `consume` -/

theorem step_ascii (buf rest : List Nat) (b i : Nat) (s : St)
    (h1 : b % 256 &&& 128 = 0) :
    consumeLoop buf (b :: rest) i s =
      consumeLoop buf rest (i + 1) (residual buf (b % 256) i
        (if b % 256 < 32 ∧ b % 256 ≠ 10 ∧ b % 256 ≠ 9 then
           bad_byte buf .CONTROL i s else s)) := by
  conv_lhs => rw [consumeLoop.eq_2]
  rw [if_pos h1]

theorem step_cont (buf rest : List Nat) (b i : Nat) (s : St)
    (h1 : ¬ b % 256 &&& 128 = 0) (h2 : b % 256 &&& 64 = 0) :
    consumeLoop buf (b :: rest) i s =
      consumeLoop buf rest (i + 1)
        (residual buf (b % 256) i (bad_byte buf .ENCODING i s)) := by
  conv_lhs => rw [consumeLoop.eq_2]
  rw [if_neg h1, if_pos h2]

theorem step_l2_defer (buf rest : List Nat) (b i : Nat) (s : St)
    (h1 : ¬ b % 256 &&& 128 = 0) (h2 : ¬ b % 256 &&& 64 = 0)
    (h3 : b % 256 &&& 32 = 0) (hlen : rest.length < 1) :
    consumeLoop buf (b :: rest) i s = early_out buf i (b :: rest) s := by
  conv_lhs => rw [consumeLoop.eq_2]
  rw [if_neg h1, if_neg h2, if_pos h3, if_pos hlen]

theorem step_l2_bad (buf rest : List Nat) (b i : Nat) (s : St)
    (h1 : ¬ b % 256 &&& 128 = 0) (h2 : ¬ b % 256 &&& 64 = 0)
    (h3 : b % 256 &&& 32 = 0) (hlen : ¬ rest.length < 1)
    (hc : rest.getD 0 0 % 256 &&& 192 ≠ 128) :
    consumeLoop buf (b :: rest) i s =
      consumeLoop buf rest (i + 1) (bad_byte buf .ENCODING i s) := by
  conv_lhs => rw [consumeLoop.eq_2]
  rw [if_neg h1, if_neg h2, if_pos h3, if_neg hlen, if_pos hc]

theorem step_l2_ok (buf rest : List Nat) (b i : Nat) (s : St)
    (h1 : ¬ b % 256 &&& 128 = 0) (h2 : ¬ b % 256 &&& 64 = 0)
    (h3 : b % 256 &&& 32 = 0) (hlen : ¬ rest.length < 1)
    (hc : rest.getD 0 0 % 256 &&& 192 = 128) :
    consumeLoop buf (b :: rest) i s =
      consumeLoop buf rest (i + 1) (residual buf (b % 256) i
        (if ((b % 256 &&& 31) <<< 6 ||| (rest.getD 0 0 % 256 &&& 63)) < 128 then
           bad_bytes buf 2 .OVERLONG i s
         else if ((b % 256 &&& 31) <<< 6 ||| (rest.getD 0 0 % 256 &&& 63)) < 160 then
           bad_bytes buf 2 .HIGH_CONTROL i s
         else s)) := by
  conv_lhs => rw [consumeLoop.eq_2]
  rw [if_neg h1, if_neg h2, if_pos h3, if_neg hlen, if_neg (not_not_intro hc)]

theorem step_l3_defer (buf rest : List Nat) (b i : Nat) (s : St)
    (h1 : ¬ b % 256 &&& 128 = 0) (h2 : ¬ b % 256 &&& 64 = 0)
    (h3 : ¬ b % 256 &&& 32 = 0) (h4 : b % 256 &&& 16 = 0)
    (hlen : rest.length < 2) :
    consumeLoop buf (b :: rest) i s = early_out buf i (b :: rest) s := by
  conv_lhs => rw [consumeLoop.eq_2]
  rw [if_neg h1, if_neg h2, if_neg h3, if_pos h4, if_pos hlen]

theorem step_l3_bad (buf rest : List Nat) (b i : Nat) (s : St)
    (h1 : ¬ b % 256 &&& 128 = 0) (h2 : ¬ b % 256 &&& 64 = 0)
    (h3 : ¬ b % 256 &&& 32 = 0) (h4 : b % 256 &&& 16 = 0)
    (hlen : ¬ rest.length < 2)
    (hc : rest.getD 0 0 % 256 &&& 192 ≠ 128 ∨ rest.getD 1 0 % 256 &&& 192 ≠ 128) :
    consumeLoop buf (b :: rest) i s =
      consumeLoop buf rest (i + 1) (bad_byte buf .ENCODING i s) := by
  conv_lhs => rw [consumeLoop.eq_2]
  rw [if_neg h1, if_neg h2, if_neg h3, if_pos h4, if_neg hlen, if_pos hc]

theorem step_l3_ok (buf rest : List Nat) (b i : Nat) (s : St)
    (h1 : ¬ b % 256 &&& 128 = 0) (h2 : ¬ b % 256 &&& 64 = 0)
    (h3 : ¬ b % 256 &&& 32 = 0) (h4 : b % 256 &&& 16 = 0)
    (hlen : ¬ rest.length < 2)
    (hc1 : rest.getD 0 0 % 256 &&& 192 = 128)
    (hc2 : rest.getD 1 0 % 256 &&& 192 = 128) :
    consumeLoop buf (b :: rest) i s =
      consumeLoop buf rest (i + 1) (residual buf (b % 256) i
        (if ((b % 256 &&& 15) <<< 12 ||| (rest.getD 0 0 % 256 &&& 63) <<< 6
             ||| (rest.getD 1 0 % 256 &&& 63)) < 2048 then
           bad_bytes buf 3 .OVERLONG i s else s)) := by
  conv_lhs => rw [consumeLoop.eq_2]
  rw [if_neg h1, if_neg h2, if_neg h3, if_pos h4, if_neg hlen,
    if_neg (by simp only [not_or, not_not]; exact ⟨hc1, hc2⟩)]

theorem step_l4_defer (buf rest : List Nat) (b i : Nat) (s : St)
    (h1 : ¬ b % 256 &&& 128 = 0) (h2 : ¬ b % 256 &&& 64 = 0)
    (h3 : ¬ b % 256 &&& 32 = 0) (h4 : ¬ b % 256 &&& 16 = 0)
    (h5 : b % 256 < 245) (hlen : rest.length < 3) :
    consumeLoop buf (b :: rest) i s = early_out buf i (b :: rest) s := by
  conv_lhs => rw [consumeLoop.eq_2]
  rw [if_neg h1, if_neg h2, if_neg h3, if_neg h4, if_pos h5, if_pos hlen]

theorem step_l4_bad (buf rest : List Nat) (b i : Nat) (s : St)
    (h1 : ¬ b % 256 &&& 128 = 0) (h2 : ¬ b % 256 &&& 64 = 0)
    (h3 : ¬ b % 256 &&& 32 = 0) (h4 : ¬ b % 256 &&& 16 = 0)
    (h5 : b % 256 < 245) (hlen : ¬ rest.length < 3)
    (hc : rest.getD 0 0 % 256 &&& 192 ≠ 128 ∨ rest.getD 1 0 % 256 &&& 192 ≠ 128 ∨
          rest.getD 2 0 % 256 &&& 192 ≠ 128) :
    consumeLoop buf (b :: rest) i s =
      consumeLoop buf rest (i + 1) (bad_byte buf .ENCODING i s) := by
  conv_lhs => rw [consumeLoop.eq_2]
  rw [if_neg h1, if_neg h2, if_neg h3, if_neg h4, if_pos h5, if_neg hlen,
    if_pos hc]

theorem step_l4_ok (buf rest : List Nat) (b i : Nat) (s : St)
    (h1 : ¬ b % 256 &&& 128 = 0) (h2 : ¬ b % 256 &&& 64 = 0)
    (h3 : ¬ b % 256 &&& 32 = 0) (h4 : ¬ b % 256 &&& 16 = 0)
    (h5 : b % 256 < 245) (hlen : ¬ rest.length < 3)
    (hc1 : rest.getD 0 0 % 256 &&& 192 = 128)
    (hc2 : rest.getD 1 0 % 256 &&& 192 = 128)
    (hc3 : rest.getD 2 0 % 256 &&& 192 = 128) :
    consumeLoop buf (b :: rest) i s =
      consumeLoop buf rest (i + 1) (residual buf (b % 256) i
        (if ((b % 256 &&& 15) <<< 18 ||| (rest.getD 0 0 % 256 &&& 63) <<< 12
             ||| (rest.getD 1 0 % 256 &&& 63) <<< 6
             ||| (rest.getD 2 0 % 256 &&& 63)) < 65536 then
           bad_bytes buf 4 .OVERLONG i s else s)) := by
  conv_lhs => rw [consumeLoop.eq_2]
  rw [if_neg h1, if_neg h2, if_neg h3, if_neg h4, if_pos h5, if_neg hlen,
    if_neg (by simp only [not_or, not_not]; exact ⟨hc1, hc2, hc3⟩)]

theorem step_illegal (buf rest : List Nat) (b i : Nat) (s : St)
    (h1 : ¬ b % 256 &&& 128 = 0) (h2 : ¬ b % 256 &&& 64 = 0)
    (h3 : ¬ b % 256 &&& 32 = 0) (h4 : ¬ b % 256 &&& 16 = 0)
    (h5 : ¬ b % 256 < 245) :
    consumeLoop buf (b :: rest) i s =
      consumeLoop buf rest (i + 1) (bad_byte buf .ENCODING i s) := by
  conv_lhs => rw [consumeLoop.eq_2]
  rw [if_neg h1, if_neg h2, if_neg h3, if_neg h4, if_neg h5]

/-! ### Claim C2 -/

/-- C2.  Classification of the spec's four precedence examples, evaluated on
the code.  `0x00` is `ControlChar` and a lone `0x80` is `EncodingError`, as
claimed.  But the claim fails on the multi-byte examples: after classifying
`0xC0 0x80` as `Overlong` (both bytes escaped under that markup), the scan
loop resumes at the very next index, so the continuation byte `0x80` is
classified a second time as `EncodingError` and escaped again; and in
`0xE2 0x82 0xAC` only the lead byte passes through raw while both
continuation bytes are re-visited and escaped as `EncodingError`, instead of
all three bytes passing through verbatim as `Clean`. -/
theorem c2_classification_eval :
    (run_fd [[0x00]]).out = [.markup .CONTROL, .esc 0x00] ∧
    (run_fd [[0xC0, 0x80]]).out =
      [.markup .OVERLONG, .esc 0xC0, .esc 0x80, .markup .ENCODING, .esc 0x80] ∧
    (run_fd [[0x80]]).out = [.markup .ENCODING, .esc 0x80] ∧
    (run_fd [[0xE2, 0x82, 0xAC]]).out =
      [.raw 0xE2, .markup .ENCODING, .esc 0x82, .esc 0xAC] := by
  decide

/-! ### Claim C3 -/

/-- C3.  The clean round-trip fails on the code: for the well-formed UTF-8
input `0xC3 0xA9` (U+00E9, no control characters, no trailing whitespace)
the annotated output is the raw lead byte followed by a highlight markup and
the escaped continuation byte `<a9>` — not the input (the scan loop never
advances past the continuation byte of a well-formed sequence, so the byte
is re-classified as `EncodingError` on the next iteration). -/
theorem c3_clean_roundtrip_eval :
    render (run_fd [[0xC3, 0xA9]]).out =
      [0xC3, 27, 91, 52, 49, 59, 57, 55, 109, 60, 97, 57, 62] ∧
    render (run_fd [[0xC3, 0xA9]]).out ≠ [0xC3, 0xA9] := by
  decide

/-! ### Claim C4 -/

/-- C4 counterexample.  For the input consisting of the single byte `0x01`
the stream ends with the active classification `CONTROL` (not `Clean`), yet
the output is exactly the `CONTROL` markup followed by the escape — no final
transition back to `Clean` is emitted, so the output is not markup-balanced,
contradicting the claim. -/
theorem c4_no_final_reset_cex :
    (run_fd [[0x01]]).current_condition = .CONTROL ∧
    (run_fd [[0x01]]).out = [.markup .CONTROL, .esc 0x01] ∧
    (run_fd [[0x01]]).out.getLast? ≠ some (.markup .OK) := by
  decide

/-! ### Claim C5 -/

/-- C5 counterexample.  An input of five consecutive `0x01` bytes produces
no `Clean` markup at all — in particular not the claimed final markup-close:
the output is one markup-open and five escapes with nothing after them. -/
theorem c5_five_controls_cex :
    (run_fd [[1, 1, 1, 1, 1]]).out.count (Item.markup .OK) = 0 ∧
    (run_fd [[1, 1, 1, 1, 1]]).out ≠
      [.markup .CONTROL, .esc 1, .esc 1, .esc 1, .esc 1, .esc 1,
       .markup .OK] := by
  decide

/-! ### Claim C6 -/

/-- Whenever a pass leaves bytes for the next chunk, the retained suffix
starts with a multi-byte lead and is shorter than the number of bytes that
lead requires: deferral happens only because too few bytes remain, never
because of their values. -/
theorem consumeLoop_leftover (buf : List Nat) :
    ∀ (rem : List Nat) (i : Nat) (s : St), (consumeLoop buf rem i s).2 ≠ [] →
      ∃ n, leadNeeds ((consumeLoop buf rem i s).2.headD 0 % 256) = some n ∧
           (consumeLoop buf rem i s).2.length < n := by
  intro rem i s
  induction rem, i, s using consumeLoop.induct buf with
  | case1 i s =>
      intro h
      simp [consumeLoop] at h
  | case2 b rest i s ch h1 s1 ih =>
      rw [step_ascii buf rest b i s h1]
      exact ih
  | case3 b rest i s ch h1 h2 ih =>
      rw [step_cont buf rest b i s h1 h2]
      exact ih
  | case4 b rest i s ch h1 h2 h3 hlen =>
      rw [step_l2_defer buf rest b i s h1 h2 h3 hlen]
      intro _
      refine ⟨2, ?_, ?_⟩
      · simp only [early_out, List.headD]
        unfold leadNeeds
        rw [if_neg h1, if_neg h2, if_pos h3]
      · simp only [early_out, List.length_cons]
        omega
  | case5 b rest i s ch h1 h2 h3 hlen ch1 hc ih =>
      rw [step_l2_bad buf rest b i s h1 h2 h3 hlen hc]
      exact ih
  | case6 b rest i s ch h1 h2 h3 hlen ch1 hc u s1 ih =>
      rw [step_l2_ok buf rest b i s h1 h2 h3 hlen (not_not.mp hc)]
      exact ih
  | case7 b rest i s ch h1 h2 h3 h4 hlen =>
      rw [step_l3_defer buf rest b i s h1 h2 h3 h4 hlen]
      intro _
      refine ⟨3, ?_, ?_⟩
      · simp only [early_out, List.headD]
        unfold leadNeeds
        rw [if_neg h1, if_neg h2, if_neg h3, if_pos h4]
      · simp only [early_out, List.length_cons]
        omega
  | case8 b rest i s ch h1 h2 h3 h4 hlen ch1 ch2 hc ih =>
      rw [step_l3_bad buf rest b i s h1 h2 h3 h4 hlen hc]
      exact ih
  | case9 b rest i s ch h1 h2 h3 h4 hlen ch1 ch2 hc u s1 ih =>
      rw [step_l3_ok buf rest b i s h1 h2 h3 h4 hlen
        (not_not.mp (not_or.mp hc).1) (not_not.mp (not_or.mp hc).2)]
      exact ih
  | case10 b rest i s ch h1 h2 h3 h4 h5 hlen =>
      rw [step_l4_defer buf rest b i s h1 h2 h3 h4 h5 hlen]
      intro _
      refine ⟨4, ?_, ?_⟩
      · simp only [early_out, List.headD]
        unfold leadNeeds
        rw [if_neg h1, if_neg h2, if_neg h3, if_neg h4, if_pos h5]
      · simp only [early_out, List.length_cons]
        omega
  | case11 b rest i s ch h1 h2 h3 h4 h5 hlen ch1 ch2 ch3 hc ih =>
      rw [step_l4_bad buf rest b i s h1 h2 h3 h4 h5 hlen hc]
      exact ih
  | case12 b rest i s ch h1 h2 h3 h4 h5 hlen ch1 ch2 ch3 hc u s1 ih =>
      rw [step_l4_ok buf rest b i s h1 h2 h3 h4 h5 hlen
        (not_not.mp (not_or.mp hc).1)
        (not_not.mp (not_or.mp (not_or.mp hc).2).1)
        (not_not.mp (not_or.mp (not_or.mp hc).2).2)]
      exact ih
  | case13 b rest i s ch h1 h2 h3 h4 h5 ih =>
      rw [step_illegal buf rest b i s h1 h2 h3 h4 h5]
      exact ih

/-- C6.  First three conjuncts: for a 2-, 3- or 4-byte lead whose
continuation bytes are available (the length guard fails) but at least one
of them is malformed, the loop classifies only the lead byte (`bad_byte`
with `ENCODING` at `i`) and resumes at the very next index `i + 1`, with
the malformed continuation byte at the head of the remaining suffix — to be
re-classified by the next iteration — and no deferral takes place.  Last
conjunct: a pass defers (returns a nonempty retained suffix) only when the
suffix is a multi-byte lead with fewer bytes available than it needs. -/
theorem c6_malformed_continuation :
    (∀ (buf rest : List Nat) (b i : Nat) (s : St),
      ¬ b % 256 &&& 128 = 0 → ¬ b % 256 &&& 64 = 0 → b % 256 &&& 32 = 0 →
      ¬ rest.length < 1 → rest.getD 0 0 % 256 &&& 192 ≠ 128 →
      consumeLoop buf (b :: rest) i s =
        consumeLoop buf rest (i + 1) (bad_byte buf .ENCODING i s)) ∧
    (∀ (buf rest : List Nat) (b i : Nat) (s : St),
      ¬ b % 256 &&& 128 = 0 → ¬ b % 256 &&& 64 = 0 → ¬ b % 256 &&& 32 = 0 →
      b % 256 &&& 16 = 0 → ¬ rest.length < 2 →
      (rest.getD 0 0 % 256 &&& 192 ≠ 128 ∨ rest.getD 1 0 % 256 &&& 192 ≠ 128) →
      consumeLoop buf (b :: rest) i s =
        consumeLoop buf rest (i + 1) (bad_byte buf .ENCODING i s)) ∧
    (∀ (buf rest : List Nat) (b i : Nat) (s : St),
      ¬ b % 256 &&& 128 = 0 → ¬ b % 256 &&& 64 = 0 → ¬ b % 256 &&& 32 = 0 →
      ¬ b % 256 &&& 16 = 0 → b % 256 < 245 → ¬ rest.length < 3 →
      (rest.getD 0 0 % 256 &&& 192 ≠ 128 ∨ rest.getD 1 0 % 256 &&& 192 ≠ 128 ∨
       rest.getD 2 0 % 256 &&& 192 ≠ 128) →
      consumeLoop buf (b :: rest) i s =
        consumeLoop buf rest (i + 1) (bad_byte buf .ENCODING i s)) ∧
    (∀ (buf : List Nat) (s : St), (consume buf s).2 ≠ [] →
      ∃ n, leadNeeds ((consume buf s).2.headD 0 % 256) = some n ∧
           (consume buf s).2.length < n) :=
  ⟨fun buf rest b i s h1 h2 h3 hlen hc => step_l2_bad buf rest b i s h1 h2 h3 hlen hc,
   fun buf rest b i s h1 h2 h3 h4 hlen hc => step_l3_bad buf rest b i s h1 h2 h3 h4 hlen hc,
   fun buf rest b i s h1 h2 h3 h4 h5 hlen hc =>
     step_l4_bad buf rest b i s h1 h2 h3 h4 h5 hlen hc,
   fun buf s => consumeLoop_leftover buf buf 0 s⟩

/-- C6 witness: a 2-byte lead `0xC2` followed by the malformed continuation
byte `0x41`, with both bytes available, is handled by escaping only the lead
and re-examining `0x41` from the next position (first conjunct of the
theorem); and the pass over the buffer `[0xE2, 0x82]` defers with a leftover
of 2 bytes for a lead needing 3 (last conjunct). -/
theorem c6_malformed_continuation_witness :
    ((¬ (0xC2 : Nat) % 256 &&& 128 = 0) ∧ (¬ (0xC2 : Nat) % 256 &&& 64 = 0) ∧
     ((0xC2 : Nat) % 256 &&& 32 = 0) ∧ (¬ ([(0x41 : Nat)] : List Nat).length < 1) ∧
     (([(0x41 : Nat)] : List Nat).getD 0 0 % 256 &&& 192 ≠ 128) ∧
     consumeLoop [0xC2, 0x41] [0xC2, 0x41] 0 initSt =
       consumeLoop [0xC2, 0x41] [0x41] 1 (bad_byte [0xC2, 0x41] .ENCODING 0 initSt)) ∧
    ((consume [0xE2, 0x82] initSt).2 ≠ [] ∧
     ∃ n, leadNeeds ((consume [0xE2, 0x82] initSt).2.headD 0 % 256) = some n ∧
          (consume [0xE2, 0x82] initSt).2.length < n) :=
  ⟨⟨by decide, by decide, by decide, by decide, by decide,
    c6_malformed_continuation.1 [0xC2, 0x41] [0x41] 0xC2 0 initSt
      (by decide) (by decide) (by decide) (by decide) (by decide)⟩,
   by decide,
   c6_malformed_continuation.2.2.2 [0xE2, 0x82] initSt (by decide)⟩

/-! ### Claim C7 -/

theorem getD_drop (l : List Nat) (n m : Nat) :
    (l.drop n).getD m 0 = l.getD (n + m) 0 := by
  simp [List.getD_eq_getElem?_getD, List.getElem?_drop]

/-- What the terminal pass of `run_fd` does, in closed form: starting from a
state whose flushed cursor sits at the scan position, every remaining byte
is printed as its own `EncodingError` escape (one byte at a time), preceded
by a single `ENCODING` markup when that classification was not already
active; nothing else is emitted and the flags survive untouched. -/
theorem terminalLoop_run (buf : List Nat) :
    ∀ (rem : List Nat) (i : Nat) (s : St), rem = buf.drop i → s.buffer_out = i →
      terminalLoop buf rem i s =
        if rem.isEmpty then s
        else
          { buffer_out := i + rem.length,
            last_byte_nl := s.last_byte_nl,
            last_byte_cr := s.last_byte_cr,
            last_byte_whitespace := s.last_byte_whitespace,
            current_condition := .ENCODING,
            out := s.out
              ++ (if Cond.ENCODING ≠ s.current_condition then
                    [Item.markup .ENCODING] else [])
              ++ rem.map (fun bb => Item.esc (bb % 256)) } := by
  intro rem
  induction rem with
  | nil => intro i s _ _; simp [terminalLoop]
  | cons b rest ih =>
    intro i s hrem ho
    have hb : buf.getD i 0 = b := by
      have h1 := getD_drop buf i 0
      rw [← hrem] at h1
      simpa using h1.symm
    have hrest : rest = buf.drop (i + 1) := by
      have h1 := List.tail_drop buf i
      rw [← hrem] at h1
      simpa using h1
    have hfl : flush_output buf i s = s := by
      unfold flush_output
      rw [if_neg (by omega)]
    have hs' : bad_byte buf .ENCODING i s =
        { buffer_out := i + 1, last_byte_nl := s.last_byte_nl,
          last_byte_cr := s.last_byte_cr,
          last_byte_whitespace := s.last_byte_whitespace,
          current_condition := .ENCODING,
          out := s.out
            ++ (if Cond.ENCODING ≠ s.current_condition then
                  [Item.markup .ENCODING] else [])
            ++ [Item.esc (b % 256)] } := by
      unfold bad_byte bad_preface emit
      rw [hfl, hb]
      dsimp only
      by_cases hc : Cond.ENCODING ≠ s.current_condition
      · simp [if_pos hc, List.append_assoc]
      · simp [if_neg hc, List.append_assoc]
    rw [terminalLoop, hs']
    cases rest with
    | nil => simp [terminalLoop]
    | cons r rs =>
      rw [ih (i + 1) _ hrest rfl]
      simp [List.append_assoc]
      omega

/-- C7.  First conjunct: the general behaviour of the terminal pass — at
true end-of-stream every still-buffered byte is reported as its own
`EncodingError` escape, one byte at a time (`terminalLoop_run`).  Second and
third conjuncts: for the input consisting of the lone 3-byte lead `0xE2`,
the read passes emit nothing at all (the byte is deferred with the state
still initial), and the whole run emits exactly one `EncodingError` markup
and the single escape `<e2>` — produced only by the terminal pass, i.e.
only after the stream is known to have ended. -/
theorem c7_eos_deferred :
    (∀ (buf rem : List Nat) (i : Nat) (s : St),
      rem = buf.drop i → s.buffer_out = i →
      terminalLoop buf rem i s =
        if rem.isEmpty then s
        else
          { buffer_out := i + rem.length,
            last_byte_nl := s.last_byte_nl,
            last_byte_cr := s.last_byte_cr,
            last_byte_whitespace := s.last_byte_whitespace,
            current_condition := .ENCODING,
            out := s.out
              ++ (if Cond.ENCODING ≠ s.current_condition then
                    [Item.markup .ENCODING] else [])
              ++ rem.map (fun bb => Item.esc (bb % 256)) }) ∧
    chunksLoop [[0xE2]] [] initSt = (initSt, [0xE2]) ∧
    (run_fd [[0xE2]]).out = [.markup .ENCODING, .esc 0xE2] :=
  ⟨terminalLoop_run, by decide, by decide⟩

/-- C7 witness: the general conjunct applied to a concrete deferred tail
(buffer `[0xE2, 0x90]` with the byte `0x90` still pending at position 1). -/
theorem c7_eos_deferred_witness :
    ([144] : List Nat) = List.drop 1 [226, 144] ∧
    (St.mk 1 false false false .OK []).buffer_out = 1 ∧
    terminalLoop [226, 144] [144] 1 (St.mk 1 false false false .OK []) =
      { buffer_out := 2, last_byte_nl := false, last_byte_cr := false,
        last_byte_whitespace := false, current_condition := .ENCODING,
        out := [Item.markup .ENCODING, Item.esc 144] } :=
  ⟨rfl, rfl, by
    have h := c7_eos_deferred.1 [226, 144] [144] 1
      (St.mk 1 false false false .OK []) rfl rfl
    simpa using h⟩

/-! ### Claim C8 -/

/-- C8.  For the input `"a \n"` a single zero-width `TrailingWhitespace`
marker (consuming no input byte: both input bytes `a` and the space are
still emitted raw, and so is the newline) appears immediately before the
newline, and the newline itself is emitted under the `Clean` classification
(after the reset markup); for `"a\n"` no marker is emitted. -/
theorem c8_trailing_whitespace :
    (run_fd [[97, 32, 10]]).out =
      [.raw 97, .raw 32, .markup .TRAILING_WHITESPACE, .marker,
       .markup .OK, .raw 10] ∧
    (run_fd [[97, 10]]).out = [.raw 97, .raw 10] ∧
    Item.marker ∉ (run_fd [[97, 10]]).out := by
  decide

/-! ### Claim C9 -/

/-- A run whose reads all succeed processes every chunk and ends in the
terminal pass: no error escape, normal completion. -/
theorem run_fdE_chunks (cs : List (List Nat)) :
    ∀ (buf : List Nat) (s : St),
      run_fdE (cs.map ReadEv.chunk) buf s =
        .ok (terminalLoop (chunksLoop cs buf s).2 (chunksLoop cs buf s).2 0
          (chunksLoop cs buf s).1) := by
  induction cs with
  | nil => intro buf s; rfl
  | cons c cs ih =>
      intro buf s
      simp only [List.map_cons, run_fdE, chunksLoop]
      exact ih _ _

/-- A run whose reads succeed for `pre` and then fail with errno `e` stops
right there: the state is the one after processing `pre`, one report is
made, and the exit status is `e`, whatever events would have followed. -/
theorem run_fdE_err (pre : List (List Nat)) (e : Nat) (rest : List ReadEv) :
    ∀ (buf : List Nat) (s : St),
      run_fdE (pre.map ReadEv.chunk ++ ReadEv.fail e :: rest) buf s =
        .error ((chunksLoop pre buf s).1, ⟨"cannot read", e⟩, e) := by
  induction pre with
  | nil => intro buf s; rfl
  | cons c cs ih =>
      intro buf s
      simp only [List.map_cons, List.cons_append, run_fdE, chunksLoop]
      exact ih _ _

/-- C9.  First conjunct: a stdin run whose reads all succeed exits with
status 0 and reports nothing, no matter what the content was (the chunk
list is universally quantified, defects included).  Second conjunct: when a
read fails with errno `e`, the process reports exactly once (the context
message plus the errno whose `strerror` text and value `errno_printf`
prints) and terminates immediately with `e` as its exit status, regardless
of any later events.  Third conjunct: a source that cannot be opened is
reported once by `file4read` and the process exits with that errno. -/
theorem c9_exit_status :
    (∀ cs : List (List Nat),
      mainExit (cs.map ReadEv.chunk) = 0 ∧
      stderrReports (cs.map ReadEv.chunk) = []) ∧
    (∀ (pre : List (List Nat)) (e : Nat) (rest : List ReadEv),
      mainExit (pre.map ReadEv.chunk ++ ReadEv.fail e :: rest) = e ∧
      stderrReports (pre.map ReadEv.chunk ++ ReadEv.fail e :: rest) =
        [⟨"cannot read", e⟩]) ∧
    (∀ (e fd : Nat), file4read (some e) fd = .error (⟨"cannot open file", e⟩, e)) := by
  refine ⟨fun cs => ?_, fun pre e rest => ?_, fun e fd => rfl⟩
  · unfold mainExit stderrReports
    rw [run_fdE_chunks]
    exact ⟨rfl, rfl⟩
  · unfold mainExit stderrReports
    rw [run_fdE_err]
    exact ⟨rfl, rfl⟩

/-! ### Claim C10 -/

theorem stripCr_eq_iff (s t : St) :
    stripCr s = stripCr t ↔
      s.buffer_out = t.buffer_out ∧ s.last_byte_nl = t.last_byte_nl ∧
      s.last_byte_whitespace = t.last_byte_whitespace ∧
      s.current_condition = t.current_condition ∧ s.out = t.out := by
  cases s
  cases t
  simp [stripCr, St.mk.injEq]

theorem flush_stripCr (buf : List Nat) (j : Nat) (s : St) :
    stripCr (flush_output buf j s) = flush_output buf j (stripCr s) := by
  cases s
  simp only [flush_output, stripCr]
  split_ifs <;> rfl

theorem preface_stripCr (buf : List Nat) (c : Cond) (j : Nat) (s : St) :
    stripCr (bad_preface buf c j s) = bad_preface buf c j (stripCr s) := by
  unfold bad_preface emit
  rw [← flush_stripCr]
  cases flush_output buf j s
  simp only [stripCr]
  split_ifs <;> rfl

theorem bad_byte_stripCr (buf : List Nat) (c : Cond) (j : Nat) (s : St) :
    stripCr (bad_byte buf c j s) = bad_byte buf c j (stripCr s) := by
  unfold bad_byte emit
  rw [← preface_stripCr]
  cases bad_preface buf c j s
  rfl

theorem bad_bytes_stripCr (buf : List Nat) (c : Cond) (s : St) :
    ∀ (n j : Nat),
      stripCr (bad_bytes buf n c j s) = bad_bytes buf n c j (stripCr s) := by
  intro n
  induction n generalizing s with
  | zero => intro j; rfl
  | succ m ih =>
      intro j
      show stripCr (bad_bytes buf m c (j + 1) (bad_byte buf c j s)) = _
      rw [ih (bad_byte buf c j s) (j + 1), bad_byte_stripCr]
      rfl

theorem marker_stripCr (buf : List Nat) (c : Cond) (j : Nat) (s : St) :
    stripCr (bad_marker buf c j s) = bad_marker buf c j (stripCr s) := by
  unfold bad_marker emit
  rw [← preface_stripCr]
  cases bad_preface buf c j s
  rfl

theorem flush_congr (buf : List Nat) (j : Nat) (s t : St)
    (h : stripCr s = stripCr t) :
    stripCr (flush_output buf j s) = stripCr (flush_output buf j t) := by
  rw [flush_stripCr, flush_stripCr, h]

theorem bad_byte_congr (buf : List Nat) (c : Cond) (j : Nat) (s t : St)
    (h : stripCr s = stripCr t) :
    stripCr (bad_byte buf c j s) = stripCr (bad_byte buf c j t) := by
  rw [bad_byte_stripCr, bad_byte_stripCr, h]

theorem bad_bytes_congr (buf : List Nat) (n : Nat) (c : Cond) (j : Nat) (s t : St)
    (h : stripCr s = stripCr t) :
    stripCr (bad_bytes buf n c j s) = stripCr (bad_bytes buf n c j t) := by
  rw [bad_bytes_stripCr, bad_bytes_stripCr, h]

theorem setBo_congr (x : Nat) (s t : St) (h : stripCr s = stripCr t) :
    stripCr { s with buffer_out := x } = stripCr { t with buffer_out := x } := by
  rcases (stripCr_eq_iff s t).mp h with ⟨-, hnl, hws, hc, hout⟩
  exact (stripCr_eq_iff _ _).mpr ⟨rfl, hnl, hws, hc, hout⟩

/-- `residual` reads only `last_byte_whitespace` and overwrites
`last_byte_cr`, so it is a congruence for equality up to that flag. -/
theorem residual_congr (buf : List Nat) (ch j : Nat) (s t : St)
    (h : stripCr s = stripCr t) :
    stripCr (residual buf ch j s) = stripCr (residual buf ch j t) := by
  obtain ⟨o, nl, cr, ws, c, out⟩ := s
  obtain ⟨o2, nl2, cr2, ws2, c2, out2⟩ := t
  simp only [stripCr, St.mk.injEq] at h
  obtain ⟨ho, hnl, -, hws, hc, hout⟩ := h
  subst ho
  subst hnl
  subst hws
  subst hc
  subst hout
  unfold residual
  dsimp only
  by_cases hmk : (ch == 10 && ws) = true
  · rw [if_pos hmk, if_pos hmk]
    have hM : stripCr (bad_marker buf .TRAILING_WHITESPACE j
          (St.mk o (ch == 10) cr ws c out)) =
        stripCr (bad_marker buf .TRAILING_WHITESPACE j
          (St.mk o (ch == 10) cr2 ws c out)) := by
      rw [marker_stripCr, marker_stripCr]
      rfl
    rcases (stripCr_eq_iff _ _).mp hM with ⟨hMo, hMnl, hMws, hMc, hMout⟩
    by_cases hcr : (ch != 13) = true
    · rw [if_pos hcr, if_pos hcr]
      exact (stripCr_eq_iff _ _).mpr ⟨hMo, hMnl, rfl, hMc, hMout⟩
    · rw [if_neg hcr, if_neg hcr]
      exact (stripCr_eq_iff _ _).mpr ⟨hMo, hMnl, hMws, hMc, hMout⟩
  · rw [if_neg hmk, if_neg hmk]

/-- Congruence: states equal up to `last_byte_cr` stay so across the whole
scan loop, and produce the same retained suffix. -/
theorem consumeLoop_congrCr (buf : List Nat) :
    ∀ (rem : List Nat) (i : Nat) (s : St), ∀ t : St, stripCr s = stripCr t →
      stripCr (consumeLoop buf rem i s).1 = stripCr (consumeLoop buf rem i t).1 ∧
      (consumeLoop buf rem i s).2 = (consumeLoop buf rem i t).2 := by
  intro rem i s
  induction rem, i, s using consumeLoop.induct buf with
  | case1 i s =>
      intro t ht
      simp only [consumeLoop]
      exact ⟨setBo_congr 0 _ _ (flush_congr buf buf.length s t ht), trivial⟩
  | case2 b rest i s ch h1 s1 ih =>
      intro t ht
      rw [step_ascii buf rest b i s h1, step_ascii buf rest b i t h1]
      apply ih
      apply residual_congr
      by_cases hctl : b % 256 < 32 ∧ b % 256 ≠ 10 ∧ b % 256 ≠ 9
      · have hs1 : s1 = bad_byte buf Cond.CONTROL i s := if_pos hctl
        rw [hs1, if_pos hctl]
        exact bad_byte_congr buf .CONTROL i s t ht
      · have hs1 : s1 = s := if_neg hctl
        rw [hs1, if_neg hctl]
        exact ht
  | case3 b rest i s ch h1 h2 ih =>
      intro t ht
      rw [step_cont buf rest b i s h1 h2, step_cont buf rest b i t h1 h2]
      exact ih _ (residual_congr buf (b % 256) i _ _
        (bad_byte_congr buf .ENCODING i s t ht))
  | case4 b rest i s ch h1 h2 h3 hlen =>
      intro t ht
      rw [step_l2_defer buf rest b i s h1 h2 h3 hlen,
        step_l2_defer buf rest b i t h1 h2 h3 hlen]
      exact ⟨setBo_congr 0 _ _ (flush_congr buf i s t ht), rfl⟩
  | case5 b rest i s ch h1 h2 h3 hlen ch1 hc ih =>
      intro t ht
      rw [step_l2_bad buf rest b i s h1 h2 h3 hlen hc,
        step_l2_bad buf rest b i t h1 h2 h3 hlen hc]
      exact ih _ (bad_byte_congr buf .ENCODING i s t ht)
  | case6 b rest i s ch h1 h2 h3 hlen ch1 hc u s1 ih =>
      intro t ht
      rw [step_l2_ok buf rest b i s h1 h2 h3 hlen (not_not.mp hc),
        step_l2_ok buf rest b i t h1 h2 h3 hlen (not_not.mp hc)]
      apply ih
      apply residual_congr
      by_cases hu1 : ((b % 256 &&& 31) <<< 6 ||| (rest.getD 0 0 % 256 &&& 63)) < 128
      · have hs1 : s1 = bad_bytes buf 2 Cond.OVERLONG i s := if_pos hu1
        rw [hs1, if_pos hu1]
        exact bad_bytes_congr buf 2 .OVERLONG i s t ht
      · by_cases hu2 : ((b % 256 &&& 31) <<< 6 ||| (rest.getD 0 0 % 256 &&& 63)) < 160
        · have hs1 : s1 = bad_bytes buf 2 Cond.HIGH_CONTROL i s :=
            (if_neg hu1).trans (if_pos hu2)
          rw [hs1, if_neg hu1, if_pos hu2]
          exact bad_bytes_congr buf 2 .HIGH_CONTROL i s t ht
        · have hs1 : s1 = s := (if_neg hu1).trans (if_neg hu2)
          rw [hs1, if_neg hu1, if_neg hu2]
          exact ht
  | case7 b rest i s ch h1 h2 h3 h4 hlen =>
      intro t ht
      rw [step_l3_defer buf rest b i s h1 h2 h3 h4 hlen,
        step_l3_defer buf rest b i t h1 h2 h3 h4 hlen]
      exact ⟨setBo_congr 0 _ _ (flush_congr buf i s t ht), rfl⟩
  | case8 b rest i s ch h1 h2 h3 h4 hlen ch1 ch2 hc ih =>
      intro t ht
      rw [step_l3_bad buf rest b i s h1 h2 h3 h4 hlen hc,
        step_l3_bad buf rest b i t h1 h2 h3 h4 hlen hc]
      exact ih _ (bad_byte_congr buf .ENCODING i s t ht)
  | case9 b rest i s ch h1 h2 h3 h4 hlen ch1 ch2 hc u s1 ih =>
      intro t ht
      rw [step_l3_ok buf rest b i s h1 h2 h3 h4 hlen
          (not_not.mp (not_or.mp hc).1) (not_not.mp (not_or.mp hc).2),
        step_l3_ok buf rest b i t h1 h2 h3 h4 hlen
          (not_not.mp (not_or.mp hc).1) (not_not.mp (not_or.mp hc).2)]
      apply ih
      apply residual_congr
      by_cases hu1 : ((b % 256 &&& 15) <<< 12 ||| (rest.getD 0 0 % 256 &&& 63) <<< 6
          ||| (rest.getD 1 0 % 256 &&& 63)) < 2048
      · have hs1 : s1 = bad_bytes buf 3 Cond.OVERLONG i s := if_pos hu1
        rw [hs1, if_pos hu1]
        exact bad_bytes_congr buf 3 .OVERLONG i s t ht
      · have hs1 : s1 = s := if_neg hu1
        rw [hs1, if_neg hu1]
        exact ht
  | case10 b rest i s ch h1 h2 h3 h4 h5 hlen =>
      intro t ht
      rw [step_l4_defer buf rest b i s h1 h2 h3 h4 h5 hlen,
        step_l4_defer buf rest b i t h1 h2 h3 h4 h5 hlen]
      exact ⟨setBo_congr 0 _ _ (flush_congr buf i s t ht), rfl⟩
  | case11 b rest i s ch h1 h2 h3 h4 h5 hlen ch1 ch2 ch3 hc ih =>
      intro t ht
      rw [step_l4_bad buf rest b i s h1 h2 h3 h4 h5 hlen hc,
        step_l4_bad buf rest b i t h1 h2 h3 h4 h5 hlen hc]
      exact ih _ (bad_byte_congr buf .ENCODING i s t ht)
  | case12 b rest i s ch h1 h2 h3 h4 h5 hlen ch1 ch2 ch3 hc u s1 ih =>
      intro t ht
      rw [step_l4_ok buf rest b i s h1 h2 h3 h4 h5 hlen
          (not_not.mp (not_or.mp hc).1)
          (not_not.mp (not_or.mp (not_or.mp hc).2).1)
          (not_not.mp (not_or.mp (not_or.mp hc).2).2),
        step_l4_ok buf rest b i t h1 h2 h3 h4 h5 hlen
          (not_not.mp (not_or.mp hc).1)
          (not_not.mp (not_or.mp (not_or.mp hc).2).1)
          (not_not.mp (not_or.mp (not_or.mp hc).2).2)]
      apply ih
      apply residual_congr
      by_cases hu1 : ((b % 256 &&& 15) <<< 18 ||| (rest.getD 0 0 % 256 &&& 63) <<< 12
          ||| (rest.getD 1 0 % 256 &&& 63) <<< 6 ||| (rest.getD 2 0 % 256 &&& 63)) < 65536
      · have hs1 : s1 = bad_bytes buf 4 Cond.OVERLONG i s := if_pos hu1
        rw [hs1, if_pos hu1]
        exact bad_bytes_congr buf 4 .OVERLONG i s t ht
      · have hs1 : s1 = s := if_neg hu1
        rw [hs1, if_neg hu1]
        exact ht
  | case13 b rest i s ch h1 h2 h3 h4 h5 ih =>
      intro t ht
      rw [step_illegal buf rest b i s h1 h2 h3 h4 h5,
        step_illegal buf rest b i t h1 h2 h3 h4 h5]
      exact ih _ (bad_byte_congr buf .ENCODING i s t ht)

theorem chunksLoop_congrCr (cs : List (List Nat)) :
    ∀ (buf : List Nat) (s t : St), stripCr s = stripCr t →
      stripCr (chunksLoop cs buf s).1 = stripCr (chunksLoop cs buf t).1 ∧
      (chunksLoop cs buf s).2 = (chunksLoop cs buf t).2 := by
  induction cs with
  | nil => intro buf s t ht; exact ⟨ht, rfl⟩
  | cons c cs ih =>
      intro buf s t ht
      simp only [chunksLoop, consume]
      have h := consumeLoop_congrCr (buf ++ c) (buf ++ c) 0 s t ht
      rw [h.2]
      exact ih _ _ _ h.1

theorem terminalLoop_congrCr (buf : List Nat) :
    ∀ (rem : List Nat) (i : Nat) (s t : St), stripCr s = stripCr t →
      stripCr (terminalLoop buf rem i s) = stripCr (terminalLoop buf rem i t) := by
  intro rem
  induction rem with
  | nil => intro i s t ht; exact ht
  | cons b rest ih =>
      intro i s t ht
      simp only [terminalLoop]
      exact ih _ _ _ (bad_byte_congr buf .ENCODING i s t ht)

/-- C10.  The flag `last_byte_cr` has no influence on the annotator: running
the whole program from an initial state with the flag set to an arbitrary
value yields the same final state up to that flag — in particular the same
output item list and byte-identical annotated stdout — as the real run.
This is exactly the behaviour of the program with the write-only flag and
its updates removed: nothing ever reads it. -/
theorem c10_last_byte_cr_unused :
    ∀ (chunks : List (List Nat)) (bcr : Bool),
      stripCr (runFdFrom { initSt with last_byte_cr := bcr } chunks) =
        stripCr (run_fd chunks) ∧
      (runFdFrom { initSt with last_byte_cr := bcr } chunks).out =
        (run_fd chunks).out ∧
      render (runFdFrom { initSt with last_byte_cr := bcr } chunks).out =
        render (run_fd chunks).out := by
  intro chunks bcr
  have hinit : stripCr (St.mk 0 false bcr false .OK []) = stripCr initSt := rfl
  have h := chunksLoop_congrCr chunks [] _ _ hinit
  have hfin : stripCr (runFdFrom { initSt with last_byte_cr := bcr } chunks) =
      stripCr (run_fd chunks) := by
    show stripCr (terminalLoop (chunksLoop chunks [] (St.mk 0 false bcr false .OK [])).2
        (chunksLoop chunks [] (St.mk 0 false bcr false .OK [])).2 0
        (chunksLoop chunks [] (St.mk 0 false bcr false .OK [])).1) =
      stripCr (terminalLoop (chunksLoop chunks [] initSt).2
        (chunksLoop chunks [] initSt).2 0 (chunksLoop chunks [] initSt).1)
    rw [h.2]
    exact terminalLoop_congrCr _ _ 0 _ _ h.1
  have hout : (runFdFrom { initSt with last_byte_cr := bcr } chunks).out =
      (run_fd chunks).out :=
    ((stripCr_eq_iff _ _).mp hfin).2.2.2.2
  exact ⟨hfin, hout, by rw [hout]⟩


/-! ### Claim C4, amended: the Clean markup only precedes flushed raw bytes -/

theorem drop_info (buf rest : List Nat) (b i : Nat) (h : b :: rest = buf.drop i) :
    rest = buf.drop (i + 1) ∧ i < buf.length ∧
      buf.length = i + rest.length + 1 := by
  have h1 := List.tail_drop buf i
  rw [← h] at h1
  have h2 := List.length_drop i buf
  rw [← h] at h2
  simp only [List.tail_cons] at h1
  simp only [List.length_cons] at h2
  refine ⟨h1, by omega, by omega⟩

theorem okF_singleton (x : Item) (hx : x ≠ Item.markup Cond.OK) :
    okFollowed [x] := by
  cases x with
  | markup c => cases c <;> first | exact absurd rfl hx | simp [okFollowed]
  | raw bb => simp [okFollowed]
  | esc bb => simp [okFollowed]
  | marker => simp [okFollowed]

theorem okF_raws (l : List Nat) : okFollowed (l.map Item.raw) := by
  induction l with
  | nil => simp [okFollowed]
  | cons bb l ih => simpa [okFollowed] using ih

theorem okF_append : ∀ (l m : List Item),
    okFollowed l → okFollowed m → okFollowed (l ++ m) := by
  intro l
  induction l with
  | nil => intro m _ hm; simpa using hm
  | cons x l ih =>
      intro m hl hm
      cases x with
      | markup c =>
          cases c with
          | OK =>
              simp only [List.cons_append, okFollowed] at hl ⊢
              obtain ⟨⟨bb, hhead⟩, htail⟩ := hl
              refine ⟨⟨bb, ?_⟩, ih m htail hm⟩
              cases l with
              | nil => simp at hhead
              | cons y l2 =>
                  simp only [List.head?_cons, Option.some.injEq] at hhead
                  simpa using hhead
          | CONTROL =>
              simp only [List.cons_append, okFollowed] at hl ⊢
              exact ih m hl hm
          | ENCODING =>
              simp only [List.cons_append, okFollowed] at hl ⊢
              exact ih m hl hm
          | OVERLONG =>
              simp only [List.cons_append, okFollowed] at hl ⊢
              exact ih m hl hm
          | HIGH_CONTROL =>
              simp only [List.cons_append, okFollowed] at hl ⊢
              exact ih m hl hm
          | TRAILING_WHITESPACE =>
              simp only [List.cons_append, okFollowed] at hl ⊢
              exact ih m hl hm
      | raw bb =>
          simp only [List.cons_append, okFollowed] at hl ⊢
          exact ih m hl hm
      | esc bb =>
          simp only [List.cons_append, okFollowed] at hl ⊢
          exact ih m hl hm
      | marker =>
          simp only [List.cons_append, okFollowed] at hl ⊢
          exact ih m hl hm

theorem flush_okF (buf : List Nat) (index : Nat) (s : St)
    (hidx : index ≤ buf.length) (h : okFollowed s.out) :
    okFollowed (flush_output buf index s).out := by
  unfold flush_output
  split_ifs with hfire
  · dsimp only
    rw [List.append_assoc]
    refine okF_append _ _ h ?_
    have hne : (buf.drop s.buffer_out).take (index - s.buffer_out) ≠ [] := by
      intro hc
      have h1 : ((buf.drop s.buffer_out).take (index - s.buffer_out)).length = 0 := by
        rw [hc]; rfl
      simp only [List.length_take, List.length_drop] at h1
      omega
    unfold okReset
    split_ifs with hcnd
    · cases hl : (buf.drop s.buffer_out).take (index - s.buffer_out) with
      | nil => exact absurd hl hne
      | cons y l2 =>
          simp only [List.map_cons, List.singleton_append, okFollowed]
          exact ⟨⟨y, rfl⟩, by simpa using okF_raws (y :: l2)⟩
    · rw [List.nil_append]
      exact okF_raws _
  · exact h

theorem preface_okF (buf : List Nat) (c : Cond) (index : Nat) (s : St)
    (hidx : index ≤ buf.length) (hc : c ≠ Cond.OK) (h : okFollowed s.out) :
    okFollowed (bad_preface buf c index s).out := by
  unfold bad_preface
  dsimp only
  split_ifs with hd
  · dsimp only [emit]
    exact okF_append _ _ (flush_okF buf index s hidx h)
      (okF_singleton _ (by simpa using hc))
  · exact flush_okF buf index s hidx h

theorem bad_byte_okF (buf : List Nat) (c : Cond) (index : Nat) (s : St)
    (hidx : index ≤ buf.length) (hc : c ≠ Cond.OK) (h : okFollowed s.out) :
    okFollowed (bad_byte buf c index s).out := by
  unfold bad_byte
  dsimp only [emit]
  exact okF_append _ _ (preface_okF buf c index s hidx hc h)
    (okF_singleton _ (by simp))

theorem bad_bytes_okF (buf : List Nat) (c : Cond) (hc : c ≠ Cond.OK) :
    ∀ (n index : Nat) (s : St), index + n ≤ buf.length → okFollowed s.out →
      okFollowed (bad_bytes buf n c index s).out := by
  intro n
  induction n with
  | zero => intro index s _ h; exact h
  | succ m ih =>
      intro index s hn h
      show okFollowed (bad_bytes buf m c (index + 1) (bad_byte buf c index s)).out
      exact ih (index + 1) _ (by omega)
        (bad_byte_okF buf c index s (by omega) hc h)

theorem marker_okF (buf : List Nat) (c : Cond) (index : Nat) (s : St)
    (hidx : index ≤ buf.length) (hc : c ≠ Cond.OK) (h : okFollowed s.out) :
    okFollowed (bad_marker buf c index s).out := by
  unfold bad_marker
  dsimp only [emit]
  exact okF_append _ _ (preface_okF buf c index s hidx hc h)
    (okF_singleton _ (by simp))

theorem residual_okF (buf : List Nat) (ch i : Nat) (s : St)
    (hidx : i ≤ buf.length) (h : okFollowed s.out) :
    okFollowed (residual buf ch i s).out := by
  unfold residual
  dsimp only
  split_ifs with h1 h2 <;>
    first
    | exact marker_okF buf _ i _ hidx (by simp) h
    | exact h

theorem consumeLoop_okF (buf : List Nat) :
    ∀ (rem : List Nat) (i : Nat) (s : St), rem = buf.drop i →
      okFollowed s.out → okFollowed (consumeLoop buf rem i s).1.out := by
  intro rem i s
  induction rem, i, s using consumeLoop.induct buf with
  | case1 i s =>
      intro _ h
      simp only [consumeLoop]
      exact flush_okF buf buf.length s le_rfl h
  | case2 b rest i s ch h1 s1 ih =>
      intro hrem h
      obtain ⟨hrest, hi, -⟩ := drop_info buf rest b i hrem
      rw [step_ascii buf rest b i s h1]
      refine ih hrest ?_
      refine residual_okF buf _ i _ (le_of_lt hi) ?_
      by_cases hctl : b % 256 < 32 ∧ b % 256 ≠ 10 ∧ b % 256 ≠ 9
      · have hs1 : s1 = bad_byte buf Cond.CONTROL i s := if_pos hctl
        rw [hs1]
        exact bad_byte_okF buf _ i s (le_of_lt hi) (by simp) h
      · have hs1 : s1 = s := if_neg hctl
        rw [hs1]
        exact h
  | case3 b rest i s ch h1 h2 ih =>
      intro hrem h
      obtain ⟨hrest, hi, -⟩ := drop_info buf rest b i hrem
      rw [step_cont buf rest b i s h1 h2]
      exact ih hrest (residual_okF buf _ i _ (le_of_lt hi)
        (bad_byte_okF buf _ i s (le_of_lt hi) (by simp) h))
  | case4 b rest i s ch h1 h2 h3 hlen =>
      intro hrem h
      obtain ⟨-, hi, -⟩ := drop_info buf rest b i hrem
      rw [step_l2_defer buf rest b i s h1 h2 h3 hlen]
      exact flush_okF buf i s (le_of_lt hi) h
  | case5 b rest i s ch h1 h2 h3 hlen ch1 hc ih =>
      intro hrem h
      obtain ⟨hrest, hi, -⟩ := drop_info buf rest b i hrem
      rw [step_l2_bad buf rest b i s h1 h2 h3 hlen hc]
      exact ih hrest (bad_byte_okF buf _ i s (le_of_lt hi) (by simp) h)
  | case6 b rest i s ch h1 h2 h3 hlen ch1 hc u s1 ih =>
      intro hrem h
      obtain ⟨hrest, hi, hlen2⟩ := drop_info buf rest b i hrem
      rw [step_l2_ok buf rest b i s h1 h2 h3 hlen (not_not.mp hc)]
      refine ih hrest ?_
      refine residual_okF buf _ i _ (le_of_lt hi) ?_
      by_cases hu1 : ((b % 256 &&& 31) <<< 6 ||| (rest.getD 0 0 % 256 &&& 63)) < 128
      · have hs1 : s1 = bad_bytes buf 2 Cond.OVERLONG i s := if_pos hu1
        rw [hs1]
        exact bad_bytes_okF buf _ (by simp) 2 i s (by omega) h
      · by_cases hu2 : ((b % 256 &&& 31) <<< 6 ||| (rest.getD 0 0 % 256 &&& 63)) < 160
        · have hs1 : s1 = bad_bytes buf 2 Cond.HIGH_CONTROL i s :=
            (if_neg hu1).trans (if_pos hu2)
          rw [hs1]
          exact bad_bytes_okF buf _ (by simp) 2 i s (by omega) h
        · have hs1 : s1 = s := (if_neg hu1).trans (if_neg hu2)
          rw [hs1]
          exact h
  | case7 b rest i s ch h1 h2 h3 h4 hlen =>
      intro hrem h
      obtain ⟨-, hi, -⟩ := drop_info buf rest b i hrem
      rw [step_l3_defer buf rest b i s h1 h2 h3 h4 hlen]
      exact flush_okF buf i s (le_of_lt hi) h
  | case8 b rest i s ch h1 h2 h3 h4 hlen ch1 ch2 hc ih =>
      intro hrem h
      obtain ⟨hrest, hi, -⟩ := drop_info buf rest b i hrem
      rw [step_l3_bad buf rest b i s h1 h2 h3 h4 hlen hc]
      exact ih hrest (bad_byte_okF buf _ i s (le_of_lt hi) (by simp) h)
  | case9 b rest i s ch h1 h2 h3 h4 hlen ch1 ch2 hc u s1 ih =>
      intro hrem h
      obtain ⟨hrest, hi, hlen2⟩ := drop_info buf rest b i hrem
      rw [step_l3_ok buf rest b i s h1 h2 h3 h4 hlen
        (not_not.mp (not_or.mp hc).1) (not_not.mp (not_or.mp hc).2)]
      refine ih hrest ?_
      refine residual_okF buf _ i _ (le_of_lt hi) ?_
      by_cases hu1 : ((b % 256 &&& 15) <<< 12 ||| (rest.getD 0 0 % 256 &&& 63) <<< 6
          ||| (rest.getD 1 0 % 256 &&& 63)) < 2048
      · have hs1 : s1 = bad_bytes buf 3 Cond.OVERLONG i s := if_pos hu1
        rw [hs1]
        have hr2 : 2 ≤ rest.length := by omega
        exact bad_bytes_okF buf _ (by simp) 3 i s (by omega) h
      · have hs1 : s1 = s := if_neg hu1
        rw [hs1]
        exact h
  | case10 b rest i s ch h1 h2 h3 h4 h5 hlen =>
      intro hrem h
      obtain ⟨-, hi, -⟩ := drop_info buf rest b i hrem
      rw [step_l4_defer buf rest b i s h1 h2 h3 h4 h5 hlen]
      exact flush_okF buf i s (le_of_lt hi) h
  | case11 b rest i s ch h1 h2 h3 h4 h5 hlen ch1 ch2 ch3 hc ih =>
      intro hrem h
      obtain ⟨hrest, hi, -⟩ := drop_info buf rest b i hrem
      rw [step_l4_bad buf rest b i s h1 h2 h3 h4 h5 hlen hc]
      exact ih hrest (bad_byte_okF buf _ i s (le_of_lt hi) (by simp) h)
  | case12 b rest i s ch h1 h2 h3 h4 h5 hlen ch1 ch2 ch3 hc u s1 ih =>
      intro hrem h
      obtain ⟨hrest, hi, hlen2⟩ := drop_info buf rest b i hrem
      rw [step_l4_ok buf rest b i s h1 h2 h3 h4 h5 hlen
        (not_not.mp (not_or.mp hc).1)
        (not_not.mp (not_or.mp (not_or.mp hc).2).1)
        (not_not.mp (not_or.mp (not_or.mp hc).2).2)]
      refine ih hrest ?_
      refine residual_okF buf _ i _ (le_of_lt hi) ?_
      by_cases hu1 : ((b % 256 &&& 15) <<< 18 ||| (rest.getD 0 0 % 256 &&& 63) <<< 12
          ||| (rest.getD 1 0 % 256 &&& 63) <<< 6 ||| (rest.getD 2 0 % 256 &&& 63)) < 65536
      · have hs1 : s1 = bad_bytes buf 4 Cond.OVERLONG i s := if_pos hu1
        rw [hs1]
        exact bad_bytes_okF buf _ (by simp) 4 i s (by omega) h
      · have hs1 : s1 = s := if_neg hu1
        rw [hs1]
        exact h
  | case13 b rest i s ch h1 h2 h3 h4 h5 ih =>
      intro hrem h
      obtain ⟨hrest, hi, -⟩ := drop_info buf rest b i hrem
      rw [step_illegal buf rest b i s h1 h2 h3 h4 h5]
      exact ih hrest (bad_byte_okF buf _ i s (le_of_lt hi) (by simp) h)

theorem terminalLoop_okF (buf : List Nat) :
    ∀ (rem : List Nat) (i : Nat) (s : St), rem = buf.drop i →
      okFollowed s.out → okFollowed (terminalLoop buf rem i s).out := by
  intro rem
  induction rem with
  | nil => intro i s _ h; exact h
  | cons b rest ih =>
      intro i s hrem h
      obtain ⟨hrest, hi, -⟩ := drop_info buf rest b i hrem
      simp only [terminalLoop]
      exact ih (i + 1) _ hrest
        (bad_byte_okF buf _ i s (le_of_lt hi) (by simp) h)

theorem run_fd_okF (chunks : List (List Nat)) :
    okFollowed (run_fd chunks).out := by
  have hcl : ∀ (cs : List (List Nat)) (buf : List Nat) (s : St),
      okFollowed s.out → okFollowed (chunksLoop cs buf s).1.out := by
    intro cs
    induction cs with
    | nil => intro buf s h; exact h
    | cons c cs ih =>
        intro buf s h
        simp only [chunksLoop, consume]
        exact ih _ _ (consumeLoop_okF _ _ 0 _ (by rw [List.drop_zero]) h)
  show okFollowed (terminalLoop (chunksLoop chunks [] initSt).2
    (chunksLoop chunks [] initSt).2 0 (chunksLoop chunks [] initSt).1).out
  exact terminalLoop_okF _ _ 0 _ (by rw [List.drop_zero])
    (hcl chunks [] initSt (by simp [initSt, okFollowed]))

theorem okF_get? : ∀ (l : List Item), okFollowed l →
    ∀ k, l.get? k = some (Item.markup Cond.OK) →
      ∃ bb, l.get? (k + 1) = some (Item.raw bb) := by
  intro l
  induction l with
  | nil => intro _ k hk; simp at hk
  | cons x l ih =>
      intro hl k hk
      cases k with
      | zero =>
          simp only [List.get?_cons_zero, Option.some.injEq] at hk
          subst hk
          simp only [okFollowed] at hl
          obtain ⟨⟨bb, hhead⟩, -⟩ := hl
          refine ⟨bb, ?_⟩
          cases l with
          | nil => simp at hhead
          | cons y l2 =>
              simp only [List.head?_cons, Option.some.injEq] at hhead
              simpa using hhead
      | succ k2 =>
          have hl2 : okFollowed l := by
            cases x with
            | markup c =>
                cases c <;> simp only [okFollowed] at hl <;>
                  first | exact hl.2 | exact hl
            | raw bb => simpa [okFollowed] using hl
            | esc bb => simpa [okFollowed] using hl
            | marker => simpa [okFollowed] using hl
          have hres := ih hl2 k2 (by simpa using hk)
          simpa using hres

theorem okF_getLast : ∀ (l : List Item), okFollowed l →
    l.getLast? ≠ some (Item.markup Cond.OK) := by
  intro l
  induction l with
  | nil => intro _ h; simp at h
  | cons x l ih =>
      intro hl
      cases l with
      | nil =>
          cases x with
          | markup c =>
              cases c with
              | OK =>
                  simp only [okFollowed] at hl
                  obtain ⟨⟨bb, hhead⟩, -⟩ := hl
                  simp at hhead
              | CONTROL => simp [List.getLast?]
              | ENCODING => simp [List.getLast?]
              | OVERLONG => simp [List.getLast?]
              | HIGH_CONTROL => simp [List.getLast?]
              | TRAILING_WHITESPACE => simp [List.getLast?]
          | raw bb => simp [List.getLast?]
          | esc bb => simp [List.getLast?]
          | marker => simp [List.getLast?]
      | cons y l2 =>
          have hl2 : okFollowed (y :: l2) := by
            cases x with
            | markup c =>
                cases c <;> simp only [okFollowed] at hl <;>
                  first | exact hl.2 | exact hl
            | raw bb => simpa [okFollowed] using hl
            | esc bb => simpa [okFollowed] using hl
            | marker => simpa [okFollowed] using hl
          rw [List.getLast?_cons_cons]
          exact ih hl2

/-- C4 amended.  The claimed final transition back to `Clean` does not exist
(`c4_no_final_reset_cex`); what does hold is: a `Clean` markup transition
appears in the output only immediately before a raw flushed byte — first
conjunct — and consequently the output never ends with a `Clean` transition
(second conjunct): when the stream ends with a non-`Clean` classification
active, nothing is appended and the markup stays unbalanced. -/
theorem c4_reset_only_before_raw :
    (∀ (chunks : List (List Nat)) (k : Nat),
      (run_fd chunks).out.get? k = some (.markup .OK) →
      ∃ bb, (run_fd chunks).out.get? (k + 1) = some (.raw bb)) ∧
    (∀ chunks : List (List Nat),
      (run_fd chunks).out.getLast? ≠ some (.markup .OK)) :=
  ⟨fun chunks k hk => okF_get? _ (run_fd_okF chunks) k hk,
   fun chunks => okF_getLast _ (run_fd_okF chunks)⟩

/-- C4 amended witness: in the run on `0x01 a` the Clean markup at position
2 is immediately followed by the raw byte `a`. -/
theorem c4_reset_only_before_raw_witness :
    (run_fd [[1, 97]]).out.get? 2 = some (.markup .OK) ∧
    (∃ bb, (run_fd [[1, 97]]).out.get? 3 = some (.raw bb)) :=
  ⟨by decide, c4_reset_only_before_raw.1 [[1, 97]] 2 (by decide)⟩

/-! ### Claim C5, amended: coalescing of markup transitions -/

theorem markupsOf_append (l m : List Item) :
    markupsOf (l ++ m) = markupsOf l ++ markupsOf m := by
  unfold markupsOf
  exact List.filterMap_append l m _

theorem markupsOf_raws (l : List Nat) : markupsOf (l.map Item.raw) = [] := by
  induction l with
  | nil => rfl
  | cons bb l ih => simpa [markupsOf] using ih

theorem markupsOf_markup (c : Cond) : markupsOf [Item.markup c] = [c] := rfl

theorem chain_snoc (l : List Cond) (c : Cond)
    (h : List.Chain' (fun x y => x ≠ y) l)
    (hlast : ∀ x, l.getLast? = some x → x ≠ c) :
    List.Chain' (fun x y => x ≠ y) (l ++ [c]) := by
  rw [List.chain'_append]
  refine ⟨h, List.chain'_singleton c, ?_⟩
  intro x hx y hy
  simp only [List.head?_cons, Option.mem_def, Option.some.injEq] at hy
  subst hy
  exact hlast x hx

theorem lastMarkup_markup (l : List Item) (c : Cond) :
    lastMarkup (l ++ [Item.markup c]) = c := by
  unfold lastMarkup
  rw [markupsOf_append, markupsOf_markup, List.getLast?_concat]
  rfl

theorem lastMarkup_no_markup (l m : List Item) (hm : markupsOf m = []) :
    lastMarkup (l ++ m) = lastMarkup l := by
  unfold lastMarkup
  rw [markupsOf_append, hm, List.append_nil]

theorem flush_MI (buf : List Nat) (index : Nat) (s : St) (h : MarkupInv s) :
    MarkupInv (flush_output buf index s) := by
  obtain ⟨hch, hlm⟩ := h
  unfold flush_output
  split_ifs with hfire
  · by_cases hc : s.current_condition = Cond.OK
    · have hok0 : okReset s.current_condition = [] := by rw [hc]; rfl
      constructor
      · show List.Chain' _ (markupsOf (s.out ++ okReset s.current_condition ++ _))
        rw [hok0, List.append_nil, markupsOf_append, markupsOf_raws,
          List.append_nil]
        exact hch
      · show lastMarkup (s.out ++ okReset s.current_condition ++ _) = Cond.OK
        rw [hok0, List.append_nil, lastMarkup_no_markup _ _ (markupsOf_raws _),
          hlm, hc]
    · have hok : okReset s.current_condition = [Item.markup Cond.OK] := by
        unfold okReset
        rw [if_pos hc]
      constructor
      · show List.Chain' _ (markupsOf (s.out ++ okReset s.current_condition ++ _))
        rw [markupsOf_append, markupsOf_append, hok, markupsOf_markup,
          markupsOf_raws, List.append_nil]
        refine chain_snoc _ _ hch ?_
        intro x hx
        have : lastMarkup s.out = x := by
          unfold lastMarkup
          rw [hx]
          rfl
        rw [hlm] at this
        rw [← this]
        exact hc
      · show lastMarkup (s.out ++ okReset s.current_condition ++ _) = Cond.OK
        rw [lastMarkup_no_markup _ _ (markupsOf_raws _), hok, lastMarkup_markup]
  · exact ⟨hch, hlm⟩

theorem preface_MI (buf : List Nat) (c : Cond) (index : Nat) (s : St)
    (h : MarkupInv s) : MarkupInv (bad_preface buf c index s) := by
  have hF := flush_MI buf index s h
  obtain ⟨hch, hlm⟩ := hF
  unfold bad_preface
  dsimp only
  split_ifs with hd
  · dsimp only [emit]
    constructor
    · show List.Chain' _ (markupsOf ((flush_output buf index s).out ++ [Item.markup c]))
      rw [markupsOf_append, markupsOf_markup]
      refine chain_snoc _ _ hch ?_
      intro x hx
      have : lastMarkup (flush_output buf index s).out = x := by
        unfold lastMarkup
        rw [hx]
        rfl
      rw [hlm] at this
      rw [← this]
      exact fun he => hd he.symm
    · show lastMarkup ((flush_output buf index s).out ++ [Item.markup c]) = c
      exact lastMarkup_markup _ c
  · constructor
    · exact hch
    · show lastMarkup (flush_output buf index s).out = c
      rw [hlm]
      exact (not_not.mp hd).symm

theorem bad_byte_MI (buf : List Nat) (c : Cond) (index : Nat) (s : St)
    (h : MarkupInv s) : MarkupInv (bad_byte buf c index s) := by
  have hP := preface_MI buf c index s h
  obtain ⟨hch, hlm⟩ := hP
  unfold bad_byte
  dsimp only [emit]
  constructor
  · show List.Chain' _ (markupsOf ((bad_preface buf c index s).out ++ [Item.esc _]))
    rw [markupsOf_append]
    rw [show markupsOf [Item.esc (buf.getD index 0 % 256)] = [] from rfl,
      List.append_nil]
    exact hch
  · show lastMarkup ((bad_preface buf c index s).out ++ [Item.esc _]) = c
    rw [lastMarkup_no_markup _ [Item.esc (buf.getD index 0 % 256)]
      (show markupsOf [Item.esc (buf.getD index 0 % 256)] = [] from rfl)]
    exact hlm

theorem bad_bytes_MI (buf : List Nat) (c : Cond) :
    ∀ (n index : Nat) (s : St), MarkupInv s →
      MarkupInv (bad_bytes buf n c index s) := by
  intro n
  induction n with
  | zero => intro index s h; exact h
  | succ m ih =>
      intro index s h
      show MarkupInv (bad_bytes buf m c (index + 1) (bad_byte buf c index s))
      exact ih (index + 1) _ (bad_byte_MI buf c index s h)

theorem marker_MI (buf : List Nat) (c : Cond) (index : Nat) (s : St)
    (h : MarkupInv s) : MarkupInv (bad_marker buf c index s) := by
  have hP := preface_MI buf c index s h
  obtain ⟨hch, hlm⟩ := hP
  unfold bad_marker
  dsimp only [emit]
  constructor
  · show List.Chain' _ (markupsOf ((bad_preface buf c index s).out ++ [Item.marker]))
    rw [markupsOf_append]
    rw [show markupsOf [Item.marker] = [] from rfl, List.append_nil]
    exact hch
  · show lastMarkup ((bad_preface buf c index s).out ++ [Item.marker]) = c
    rw [lastMarkup_no_markup _ [Item.marker]
      (show markupsOf [Item.marker] = [] from rfl)]
    exact hlm

theorem residual_MI (buf : List Nat) (ch i : Nat) (s : St) (h : MarkupInv s) :
    MarkupInv (residual buf ch i s) := by
  unfold residual
  dsimp only
  have hset : MarkupInv { s with last_byte_nl := ch == 10 } := h
  split_ifs with h1 h2 <;>
    first
    | exact marker_MI buf _ i _ hset
    | exact hset

theorem consumeLoop_MI (buf : List Nat) :
    ∀ (rem : List Nat) (i : Nat) (s : St), MarkupInv s →
      MarkupInv (consumeLoop buf rem i s).1 := by
  intro rem i s
  induction rem, i, s using consumeLoop.induct buf with
  | case1 i s =>
      intro h
      simp only [consumeLoop]
      exact flush_MI buf buf.length s h
  | case2 b rest i s ch h1 s1 ih =>
      intro h
      rw [step_ascii buf rest b i s h1]
      refine ih ?_
      refine residual_MI buf _ i _ ?_
      by_cases hctl : b % 256 < 32 ∧ b % 256 ≠ 10 ∧ b % 256 ≠ 9
      · have hs1 : s1 = bad_byte buf Cond.CONTROL i s := if_pos hctl
        rw [hs1]
        exact bad_byte_MI buf _ i s h
      · have hs1 : s1 = s := if_neg hctl
        rw [hs1]
        exact h
  | case3 b rest i s ch h1 h2 ih =>
      intro h
      rw [step_cont buf rest b i s h1 h2]
      exact ih (residual_MI buf _ i _ (bad_byte_MI buf _ i s h))
  | case4 b rest i s ch h1 h2 h3 hlen =>
      intro h
      rw [step_l2_defer buf rest b i s h1 h2 h3 hlen]
      exact flush_MI buf i s h
  | case5 b rest i s ch h1 h2 h3 hlen ch1 hc ih =>
      intro h
      rw [step_l2_bad buf rest b i s h1 h2 h3 hlen hc]
      exact ih (bad_byte_MI buf _ i s h)
  | case6 b rest i s ch h1 h2 h3 hlen ch1 hc u s1 ih =>
      intro h
      rw [step_l2_ok buf rest b i s h1 h2 h3 hlen (not_not.mp hc)]
      refine ih (residual_MI buf _ i _ ?_)
      by_cases hu1 : ((b % 256 &&& 31) <<< 6 ||| (rest.getD 0 0 % 256 &&& 63)) < 128
      · have hs1 : s1 = bad_bytes buf 2 Cond.OVERLONG i s := if_pos hu1
        rw [hs1]
        exact bad_bytes_MI buf _ 2 i s h
      · by_cases hu2 : ((b % 256 &&& 31) <<< 6 ||| (rest.getD 0 0 % 256 &&& 63)) < 160
        · have hs1 : s1 = bad_bytes buf 2 Cond.HIGH_CONTROL i s :=
            (if_neg hu1).trans (if_pos hu2)
          rw [hs1]
          exact bad_bytes_MI buf _ 2 i s h
        · have hs1 : s1 = s := (if_neg hu1).trans (if_neg hu2)
          rw [hs1]
          exact h
  | case7 b rest i s ch h1 h2 h3 h4 hlen =>
      intro h
      rw [step_l3_defer buf rest b i s h1 h2 h3 h4 hlen]
      exact flush_MI buf i s h
  | case8 b rest i s ch h1 h2 h3 h4 hlen ch1 ch2 hc ih =>
      intro h
      rw [step_l3_bad buf rest b i s h1 h2 h3 h4 hlen hc]
      exact ih (bad_byte_MI buf _ i s h)
  | case9 b rest i s ch h1 h2 h3 h4 hlen ch1 ch2 hc u s1 ih =>
      intro h
      rw [step_l3_ok buf rest b i s h1 h2 h3 h4 hlen
        (not_not.mp (not_or.mp hc).1) (not_not.mp (not_or.mp hc).2)]
      refine ih (residual_MI buf _ i _ ?_)
      by_cases hu1 : ((b % 256 &&& 15) <<< 12 ||| (rest.getD 0 0 % 256 &&& 63) <<< 6
          ||| (rest.getD 1 0 % 256 &&& 63)) < 2048
      · have hs1 : s1 = bad_bytes buf 3 Cond.OVERLONG i s := if_pos hu1
        rw [hs1]
        exact bad_bytes_MI buf _ 3 i s h
      · have hs1 : s1 = s := if_neg hu1
        rw [hs1]
        exact h
  | case10 b rest i s ch h1 h2 h3 h4 h5 hlen =>
      intro h
      rw [step_l4_defer buf rest b i s h1 h2 h3 h4 h5 hlen]
      exact flush_MI buf i s h
  | case11 b rest i s ch h1 h2 h3 h4 h5 hlen ch1 ch2 ch3 hc ih =>
      intro h
      rw [step_l4_bad buf rest b i s h1 h2 h3 h4 h5 hlen hc]
      exact ih (bad_byte_MI buf _ i s h)
  | case12 b rest i s ch h1 h2 h3 h4 h5 hlen ch1 ch2 ch3 hc u s1 ih =>
      intro h
      rw [step_l4_ok buf rest b i s h1 h2 h3 h4 h5 hlen
        (not_not.mp (not_or.mp hc).1)
        (not_not.mp (not_or.mp (not_or.mp hc).2).1)
        (not_not.mp (not_or.mp (not_or.mp hc).2).2)]
      refine ih (residual_MI buf _ i _ ?_)
      by_cases hu1 : ((b % 256 &&& 15) <<< 18 ||| (rest.getD 0 0 % 256 &&& 63) <<< 12
          ||| (rest.getD 1 0 % 256 &&& 63) <<< 6 ||| (rest.getD 2 0 % 256 &&& 63)) < 65536
      · have hs1 : s1 = bad_bytes buf 4 Cond.OVERLONG i s := if_pos hu1
        rw [hs1]
        exact bad_bytes_MI buf _ 4 i s h
      · have hs1 : s1 = s := if_neg hu1
        rw [hs1]
        exact h
  | case13 b rest i s ch h1 h2 h3 h4 h5 ih =>
      intro h
      rw [step_illegal buf rest b i s h1 h2 h3 h4 h5]
      exact ih (bad_byte_MI buf _ i s h)

theorem run_fd_MI (chunks : List (List Nat)) : MarkupInv (run_fd chunks) := by
  have hcl : ∀ (cs : List (List Nat)) (buf : List Nat) (s : St),
      MarkupInv s → MarkupInv (chunksLoop cs buf s).1 := by
    intro cs
    induction cs with
    | nil => intro buf s h; exact h
    | cons c cs ih =>
        intro buf s h
        simp only [chunksLoop, consume]
        exact ih _ _ (consumeLoop_MI _ _ 0 _ h)
  have hterm : ∀ (buf rem : List Nat) (i : Nat) (s : St), MarkupInv s →
      MarkupInv (terminalLoop buf rem i s) := by
    intro buf rem
    induction rem with
    | nil => intro i s h; exact h
    | cons b rest ih =>
        intro i s h
        simp only [terminalLoop]
        exact ih _ _ (bad_byte_MI buf _ i s h)
  show MarkupInv (terminalLoop (chunksLoop chunks [] initSt).2
    (chunksLoop chunks [] initSt).2 0 (chunksLoop chunks [] initSt).1)
  refine hterm _ _ 0 _ (hcl chunks [] initSt ?_)
  exact ⟨List.chain'_nil, rfl⟩

/-- C5 amended.  First conjunct: five consecutive `0x01` bytes produce
exactly one markup-open followed by the five escapes, and nothing after them
— there is no markup-close, since the stream ends with `CONTROL` active and
a `Clean` transition is only emitted when clean bytes are later flushed.
Second conjunct (the coalescing part of the claim, which holds in general):
in the output of any run, consecutive markup transitions always differ, so
the transition of a classification is emitted at most once per maximal run
of that classification. -/
theorem c5_coalescing_amended :
    (run_fd [[1, 1, 1, 1, 1]]).out =
      [.markup .CONTROL, .esc 1, .esc 1, .esc 1, .esc 1, .esc 1] ∧
    ∀ chunks : List (List Nat),
      List.Chain' (fun x y => x ≠ y) (markupsOf (run_fd chunks).out) :=
  ⟨by decide, fun chunks => (run_fd_MI chunks).1⟩

/-! ### Claim C1: chunk-boundary invariance.

The proof relates the scan of a buffer to the scan of the same buffer with
its first `d` already-consumed bytes cut off (the state after `early_out`'s
`memmove`), by the simulation relation `SplitR`, and then shows a pass over
`a ++ b` equals a pass over `a` followed by a pass over the retained suffix
plus `b`.  Folding that over the chunk list reduces any chunking to the
single-chunk run. -/

theorem st_ext (a b : St) (h1 : a.buffer_out = b.buffer_out)
    (h2 : a.last_byte_nl = b.last_byte_nl) (h3 : a.last_byte_cr = b.last_byte_cr)
    (h4 : a.last_byte_whitespace = b.last_byte_whitespace)
    (h5 : a.current_condition = b.current_condition) (h6 : a.out = b.out) :
    a = b := by
  cases a
  cases b
  simp_all

theorem drop_drop_cancel (l : List Nat) (d o : Nat) (h : d ≤ o) :
    (l.drop d).drop (o - d) = l.drop o := by
  rw [List.drop_drop]
  congr 1
  omega

theorem slice_append (l : List Nat) (a b c : Nat) (hab : a ≤ b) (hbc : b ≤ c) :
    (l.drop a).take (b - a) ++ (l.drop b).take (c - b) = (l.drop a).take (c - a) := by
  have h1 : c - a = (b - a) + (c - b) := by omega
  rw [h1, List.take_add, drop_drop_cancel l a b hab]

theorem getD_dropN (l : List Nat) (d j : Nat) (h : d ≤ j) :
    (l.drop d).getD (j - d) 0 = l.getD j 0 := by
  rw [getD_drop]
  congr 1
  omega

theorem ExactR_update_nl (d : Nat) (x : Bool) (c s : St) (h : ExactR d c s) :
    ExactR d { c with last_byte_nl := x } { s with last_byte_nl := x } :=
  ⟨⟨rfl, h.1.2.1, h.1.2.2⟩, h.2.1, h.2.2.1, h.2.2.2.1, h.2.2.2.2⟩

theorem ExactR_update_cr (d : Nat) (x : Bool) (c s : St) (h : ExactR d c s) :
    ExactR d { c with last_byte_cr := x } { s with last_byte_cr := x } :=
  ⟨⟨h.1.1, rfl, h.1.2.2⟩, h.2.1, h.2.2.1, h.2.2.2.1, h.2.2.2.2⟩

theorem ExactR_update_ws (d : Nat) (x : Bool) (c s : St) (h : ExactR d c s) :
    ExactR d { c with last_byte_whitespace := x } { s with last_byte_whitespace := x } :=
  ⟨⟨h.1.1, h.1.2.1, rfl⟩, h.2.1, h.2.2.1, h.2.2.2.1, h.2.2.2.2⟩

theorem PendR_update_nl (d : Nat) (buf : List Nat) (x : Bool) (c s : St)
    (h : PendR d buf c s) :
    PendR d buf { c with last_byte_nl := x } { s with last_byte_nl := x } :=
  ⟨⟨rfl, h.1.2.1, h.1.2.2⟩, h.2.1, h.2.2.1, h.2.2.2.1, h.2.2.2.2⟩

theorem PendR_update_cr (d : Nat) (buf : List Nat) (x : Bool) (c s : St)
    (h : PendR d buf c s) :
    PendR d buf { c with last_byte_cr := x } { s with last_byte_cr := x } :=
  ⟨⟨h.1.1, rfl, h.1.2.2⟩, h.2.1, h.2.2.1, h.2.2.2.1, h.2.2.2.2⟩

theorem PendR_update_ws (d : Nat) (buf : List Nat) (x : Bool) (c s : St)
    (h : PendR d buf c s) :
    PendR d buf { c with last_byte_whitespace := x } { s with last_byte_whitespace := x } :=
  ⟨⟨h.1.1, h.1.2.1, rfl⟩, h.2.1, h.2.2.1, h.2.2.2.1, h.2.2.2.2⟩

/-- `flush_output` re-aligns the two runs into the exact mode. -/
theorem flush_SR (buf : List Nat) (d j : Nat) (c s : St)
    (h : SplitR d buf c s) (hdj : d ≤ j) :
    ExactR d (flush_output buf j c) (flush_output (buf.drop d) (j - d) s) := by
  rcases h with hE | hP
  · obtain ⟨hf, hdo, hso, hcond, hout⟩ := hE
    unfold flush_output
    by_cases hfc : c.buffer_out < j
    · have hfs : s.buffer_out < j - d := by omega
      rw [if_pos hfc, if_pos hfs]
      refine ⟨hf, hdj, rfl, rfl, ?_⟩
      show s.out ++ okReset s.current_condition
          ++ (((buf.drop d).drop s.buffer_out).take (j - d - s.buffer_out)).map Item.raw
        = c.out ++ okReset c.current_condition
          ++ ((buf.drop c.buffer_out).take (j - c.buffer_out)).map Item.raw
      rw [hout, hcond, hso, drop_drop_cancel buf d c.buffer_out hdo,
        show j - d - (c.buffer_out - d) = j - c.buffer_out from by omega]
    · have hfs : ¬ s.buffer_out < j - d := by omega
      rw [if_neg hfc, if_neg hfs]
      exact ⟨hf, hdo, hso, hcond, hout⟩
  · obtain ⟨hf, hod, hso, hcond, hout⟩ := hP
    have hfc : c.buffer_out < j := by omega
    unfold flush_output
    by_cases hdj2 : d < j
    · have hfs : s.buffer_out < j - d := by omega
      rw [if_pos hfc, if_pos hfs]
      refine ⟨hf, hdj, rfl, rfl, ?_⟩
      show s.out ++ okReset s.current_condition
          ++ (((buf.drop d).drop s.buffer_out).take (j - d - s.buffer_out)).map Item.raw
        = c.out ++ okReset c.current_condition
          ++ ((buf.drop c.buffer_out).take (j - c.buffer_out)).map Item.raw
      rw [hout, hcond, hso, List.drop_zero, Nat.sub_zero,
        show okReset Cond.OK = [] from rfl, List.append_nil,
        List.append_assoc (c.out ++ okReset c.current_condition),
        ← List.map_append, slice_append buf c.buffer_out d j (le_of_lt hod) hdj]
    · have hdj3 : d = j := by omega
      subst hdj3
      have hfs : ¬ s.buffer_out < d - d := by omega
      rw [if_pos hfc, if_neg hfs]
      exact ⟨hf, le_refl d, by show s.buffer_out = d - d; omega, hcond, hout⟩

theorem preface_SR (buf : List Nat) (d : Nat) (cond : Cond) (j : Nat) (c s : St)
    (h : SplitR d buf c s) (hdj : d ≤ j) :
    ExactR d (bad_preface buf cond j c) (bad_preface (buf.drop d) cond (j - d) s) := by
  have hF := flush_SR buf d j c s h hdj
  obtain ⟨hf, hdo, hso, hcond, hout⟩ := hF
  unfold bad_preface
  dsimp only
  by_cases hd2 : cond ≠ (flush_output buf j c).current_condition
  · rw [if_pos hd2, if_pos (show cond ≠ (flush_output (buf.drop d) (j - d) s).current_condition
      from by rw [hcond]; exact hd2)]
    dsimp only [emit]
    exact ⟨hf, hdo, hso, rfl, by rw [hout]⟩
  · rw [if_neg hd2, if_neg (show ¬ cond ≠ (flush_output (buf.drop d) (j - d) s).current_condition
      from by rw [hcond]; exact hd2)]
    exact ⟨hf, hdo, hso, rfl, hout⟩

theorem bad_byte_SR (buf : List Nat) (d : Nat) (cond : Cond) (j : Nat) (c s : St)
    (h : SplitR d buf c s) (hdj : d ≤ j) :
    ExactR d (bad_byte buf cond j c) (bad_byte (buf.drop d) cond (j - d) s) := by
  have hP := preface_SR buf d cond j c s h hdj
  obtain ⟨hf, hdo, hso, hcond, hout⟩ := hP
  unfold bad_byte
  dsimp only [emit]
  refine ⟨hf, show d ≤ j + 1 from by omega, show j - d + 1 = j + 1 - d from by omega,
    hcond, ?_⟩
  show (bad_preface (buf.drop d) cond (j - d) s).out
      ++ [Item.esc ((buf.drop d).getD (j - d) 0 % 256)]
    = (bad_preface buf cond j c).out ++ [Item.esc (buf.getD j 0 % 256)]
  rw [hout, getD_dropN buf d j hdj]

theorem bad_bytes_SR (buf : List Nat) (d : Nat) (cond : Cond) :
    ∀ (n : Nat) (j : Nat) (c s : St), SplitR d buf c s → d ≤ j →
      SplitR d buf (bad_bytes buf n cond j c)
        (bad_bytes (buf.drop d) n cond (j - d) s) := by
  intro n
  induction n with
  | zero => intro j c s h _; exact h
  | succ m ih =>
      intro j c s h hdj
      show SplitR d buf (bad_bytes buf m cond (j + 1) (bad_byte buf cond j c))
        (bad_bytes (buf.drop d) m cond (j - d + 1) (bad_byte (buf.drop d) cond (j - d) s))
      rw [show j - d + 1 = j + 1 - d from by omega]
      exact ih (j + 1) _ _ (Or.inl (bad_byte_SR buf d cond j c s h hdj)) (by omega)

theorem marker_SR (buf : List Nat) (d : Nat) (cond : Cond) (j : Nat) (c s : St)
    (h : SplitR d buf c s) (hdj : d ≤ j) :
    ExactR d (bad_marker buf cond j c) (bad_marker (buf.drop d) cond (j - d) s) := by
  have hP := preface_SR buf d cond j c s h hdj
  obtain ⟨hf, hdo, hso, hcond, hout⟩ := hP
  unfold bad_marker
  dsimp only [emit]
  refine ⟨hf, hdo, hso, hcond, ?_⟩
  show (bad_preface (buf.drop d) cond (j - d) s).out ++ [Item.marker]
    = (bad_preface buf cond j c).out ++ [Item.marker]
  rw [hout]

theorem SplitR_update_nl (d : Nat) (buf : List Nat) (x : Bool) (c s : St)
    (h : SplitR d buf c s) :
    SplitR d buf { c with last_byte_nl := x } { s with last_byte_nl := x } := by
  rcases h with hE | hP
  · exact Or.inl (ExactR_update_nl d x c s hE)
  · exact Or.inr (PendR_update_nl d buf x c s hP)

theorem SplitR_update_cr (d : Nat) (buf : List Nat) (x : Bool) (c s : St)
    (h : SplitR d buf c s) :
    SplitR d buf { c with last_byte_cr := x } { s with last_byte_cr := x } := by
  rcases h with hE | hP
  · exact Or.inl (ExactR_update_cr d x c s hE)
  · exact Or.inr (PendR_update_cr d buf x c s hP)

theorem SplitR_update_ws (d : Nat) (buf : List Nat) (x : Bool) (c s : St)
    (h : SplitR d buf c s) :
    SplitR d buf { c with last_byte_whitespace := x } { s with last_byte_whitespace := x } := by
  rcases h with hE | hP
  · exact Or.inl (ExactR_update_ws d x c s hE)
  · exact Or.inr (PendR_update_ws d buf x c s hP)

theorem residual_SR (buf : List Nat) (d : Nat) (ch j : Nat) (c s : St)
    (h : SplitR d buf c s) (hdj : d ≤ j) :
    SplitR d buf (residual buf ch j c) (residual (buf.drop d) ch (j - d) s) := by
  have hws : c.last_byte_whitespace = s.last_byte_whitespace := by
    rcases h with hE | hP
    · exact hE.1.2.2
    · exact hP.1.2.2
  have h1 : SplitR d buf { c with last_byte_nl := (ch == 10) }
      { s with last_byte_nl := (ch == 10) } := SplitR_update_nl d buf _ c s h
  unfold residual
  dsimp only
  by_cases hmk : (ch == 10 && c.last_byte_whitespace) = true
  · rw [if_pos hmk, if_pos (show (ch == 10 && s.last_byte_whitespace) = true
      from by rw [← hws]; exact hmk)]
    have h2 := marker_SR buf d .TRAILING_WHITESPACE j _ _ h1 hdj
    by_cases hcr : (ch != 13) = true
    · rw [if_pos hcr, if_pos hcr]
      exact Or.inl ⟨⟨h2.1.1, rfl, rfl⟩, h2.2.1, h2.2.2.1, h2.2.2.2.1, h2.2.2.2.2⟩
    · rw [if_neg hcr, if_neg hcr]
      exact Or.inl ⟨⟨h2.1.1, rfl, h2.1.2.2⟩, h2.2.1, h2.2.2.1, h2.2.2.2.1,
        h2.2.2.2.2⟩
  · rw [if_neg hmk, if_neg (show ¬ (ch == 10 && s.last_byte_whitespace) = true
      from by rw [← hws]; exact hmk)]
    by_cases hcr : (ch != 13) = true
    · rw [if_pos hcr, if_pos hcr]
      rcases h1 with hE | hP
      · exact Or.inl ⟨⟨hE.1.1, rfl, rfl⟩, hE.2.1, hE.2.2.1, hE.2.2.2.1, hE.2.2.2.2⟩
      · exact Or.inr ⟨⟨hP.1.1, rfl, rfl⟩, hP.2.1, hP.2.2.1, hP.2.2.2.1, hP.2.2.2.2⟩
    · rw [if_neg hcr, if_neg hcr]
      rcases h1 with hE | hP
      · exact Or.inl ⟨⟨hE.1.1, rfl, hE.1.2.2⟩, hE.2.1, hE.2.2.1, hE.2.2.2.1,
          hE.2.2.2.2⟩
      · exact Or.inr ⟨⟨hP.1.1, rfl, hP.1.2.2⟩, hP.2.1, hP.2.2.1, hP.2.2.2.1,
          hP.2.2.2.2⟩

/-- The central simulation: a scan of `buf` from position `i` equals the
scan of the buffer with its first `d` bytes cut off from position `i - d`,
whenever the states are `SplitR`-related.  Branch selection only depends on
the shared suffix `rem`, so the two runs move in lockstep. -/
theorem consumeLoop_SR (buf : List Nat) (d : Nat) (hd : d ≤ buf.length) :
    ∀ (rem : List Nat) (i : Nat) (c : St), d ≤ i → ∀ s : St, SplitR d buf c s →
      consumeLoop buf rem i c = consumeLoop (buf.drop d) rem (i - d) s := by
  intro rem i c
  induction rem, i, c using consumeLoop.induct buf with
  | case1 i c =>
      intro hdi s hR
      simp only [consumeLoop]
      rw [List.length_drop]
      have hE := flush_SR buf d buf.length c s hR hd
      refine congrArg (fun st => (st, ([] : List Nat))) ?_
      exact st_ext _ _ rfl hE.1.1 hE.1.2.1 hE.1.2.2 hE.2.2.2.1.symm hE.2.2.2.2.symm
  | case2 b rest i c ch h1 s1 ih =>
      intro hdi s hR
      rw [step_ascii buf rest b i c h1, step_ascii (buf.drop d) rest b (i - d) s h1,
        show i - d + 1 = i + 1 - d from by omega]
      refine ih (by omega) _ ?_
      refine residual_SR buf d (b % 256) i _ _ ?_ hdi
      by_cases hctl : b % 256 < 32 ∧ b % 256 ≠ 10 ∧ b % 256 ≠ 9
      · have hs1 : s1 = bad_byte buf Cond.CONTROL i c := if_pos hctl
        rw [hs1, if_pos hctl]
        exact Or.inl (bad_byte_SR buf d .CONTROL i c s hR hdi)
      · have hs1 : s1 = c := if_neg hctl
        rw [hs1, if_neg hctl]
        exact hR
  | case3 b rest i c ch h1 h2 ih =>
      intro hdi s hR
      rw [step_cont buf rest b i c h1 h2, step_cont (buf.drop d) rest b (i - d) s h1 h2,
        show i - d + 1 = i + 1 - d from by omega]
      exact ih (by omega) _ (residual_SR buf d (b % 256) i _ _
        (Or.inl (bad_byte_SR buf d .ENCODING i c s hR hdi)) hdi)
  | case4 b rest i c ch h1 h2 h3 hlen =>
      intro hdi s hR
      rw [step_l2_defer buf rest b i c h1 h2 h3 hlen,
        step_l2_defer (buf.drop d) rest b (i - d) s h1 h2 h3 hlen]
      unfold early_out
      have hE := flush_SR buf d i c s hR hdi
      refine congrArg (fun st => (st, b :: rest)) ?_
      exact st_ext _ _ rfl hE.1.1 hE.1.2.1 hE.1.2.2 hE.2.2.2.1.symm hE.2.2.2.2.symm
  | case5 b rest i c ch h1 h2 h3 hlen ch1 hc ih =>
      intro hdi s hR
      rw [step_l2_bad buf rest b i c h1 h2 h3 hlen hc,
        step_l2_bad (buf.drop d) rest b (i - d) s h1 h2 h3 hlen hc,
        show i - d + 1 = i + 1 - d from by omega]
      exact ih (by omega) _ (Or.inl (bad_byte_SR buf d .ENCODING i c s hR hdi))
  | case6 b rest i c ch h1 h2 h3 hlen ch1 hc u s1 ih =>
      intro hdi s hR
      rw [step_l2_ok buf rest b i c h1 h2 h3 hlen (not_not.mp hc),
        step_l2_ok (buf.drop d) rest b (i - d) s h1 h2 h3 hlen (not_not.mp hc),
        show i - d + 1 = i + 1 - d from by omega]
      refine ih (by omega) _ ?_
      refine residual_SR buf d (b % 256) i _ _ ?_ hdi
      by_cases hu1 : ((b % 256 &&& 31) <<< 6 ||| (rest.getD 0 0 % 256 &&& 63)) < 128
      · have hs1 : s1 = bad_bytes buf 2 Cond.OVERLONG i c := if_pos hu1
        rw [hs1, if_pos hu1]
        exact bad_bytes_SR buf d .OVERLONG 2 i c s hR hdi
      · by_cases hu2 : ((b % 256 &&& 31) <<< 6 ||| (rest.getD 0 0 % 256 &&& 63)) < 160
        · have hs1 : s1 = bad_bytes buf 2 Cond.HIGH_CONTROL i c :=
            (if_neg hu1).trans (if_pos hu2)
          rw [hs1, if_neg hu1, if_pos hu2]
          exact bad_bytes_SR buf d .HIGH_CONTROL 2 i c s hR hdi
        · have hs1 : s1 = c := (if_neg hu1).trans (if_neg hu2)
          rw [hs1, if_neg hu1, if_neg hu2]
          exact hR
  | case7 b rest i c ch h1 h2 h3 h4 hlen =>
      intro hdi s hR
      rw [step_l3_defer buf rest b i c h1 h2 h3 h4 hlen,
        step_l3_defer (buf.drop d) rest b (i - d) s h1 h2 h3 h4 hlen]
      unfold early_out
      have hE := flush_SR buf d i c s hR hdi
      refine congrArg (fun st => (st, b :: rest)) ?_
      exact st_ext _ _ rfl hE.1.1 hE.1.2.1 hE.1.2.2 hE.2.2.2.1.symm hE.2.2.2.2.symm
  | case8 b rest i c ch h1 h2 h3 h4 hlen ch1 ch2 hc ih =>
      intro hdi s hR
      rw [step_l3_bad buf rest b i c h1 h2 h3 h4 hlen hc,
        step_l3_bad (buf.drop d) rest b (i - d) s h1 h2 h3 h4 hlen hc,
        show i - d + 1 = i + 1 - d from by omega]
      exact ih (by omega) _ (Or.inl (bad_byte_SR buf d .ENCODING i c s hR hdi))
  | case9 b rest i c ch h1 h2 h3 h4 hlen ch1 ch2 hc u s1 ih =>
      intro hdi s hR
      rw [step_l3_ok buf rest b i c h1 h2 h3 h4 hlen
          (not_not.mp (not_or.mp hc).1) (not_not.mp (not_or.mp hc).2),
        step_l3_ok (buf.drop d) rest b (i - d) s h1 h2 h3 h4 hlen
          (not_not.mp (not_or.mp hc).1) (not_not.mp (not_or.mp hc).2),
        show i - d + 1 = i + 1 - d from by omega]
      refine ih (by omega) _ ?_
      refine residual_SR buf d (b % 256) i _ _ ?_ hdi
      by_cases hu1 : ((b % 256 &&& 15) <<< 12 ||| (rest.getD 0 0 % 256 &&& 63) <<< 6
          ||| (rest.getD 1 0 % 256 &&& 63)) < 2048
      · have hs1 : s1 = bad_bytes buf 3 Cond.OVERLONG i c := if_pos hu1
        rw [hs1, if_pos hu1]
        exact bad_bytes_SR buf d .OVERLONG 3 i c s hR hdi
      · have hs1 : s1 = c := if_neg hu1
        rw [hs1, if_neg hu1]
        exact hR
  | case10 b rest i c ch h1 h2 h3 h4 h5 hlen =>
      intro hdi s hR
      rw [step_l4_defer buf rest b i c h1 h2 h3 h4 h5 hlen,
        step_l4_defer (buf.drop d) rest b (i - d) s h1 h2 h3 h4 h5 hlen]
      unfold early_out
      have hE := flush_SR buf d i c s hR hdi
      refine congrArg (fun st => (st, b :: rest)) ?_
      exact st_ext _ _ rfl hE.1.1 hE.1.2.1 hE.1.2.2 hE.2.2.2.1.symm hE.2.2.2.2.symm
  | case11 b rest i c ch h1 h2 h3 h4 h5 hlen ch1 ch2 ch3 hc ih =>
      intro hdi s hR
      rw [step_l4_bad buf rest b i c h1 h2 h3 h4 h5 hlen hc,
        step_l4_bad (buf.drop d) rest b (i - d) s h1 h2 h3 h4 h5 hlen hc,
        show i - d + 1 = i + 1 - d from by omega]
      exact ih (by omega) _ (Or.inl (bad_byte_SR buf d .ENCODING i c s hR hdi))
  | case12 b rest i c ch h1 h2 h3 h4 h5 hlen ch1 ch2 ch3 hc u s1 ih =>
      intro hdi s hR
      rw [step_l4_ok buf rest b i c h1 h2 h3 h4 h5 hlen
          (not_not.mp (not_or.mp hc).1)
          (not_not.mp (not_or.mp (not_or.mp hc).2).1)
          (not_not.mp (not_or.mp (not_or.mp hc).2).2),
        step_l4_ok (buf.drop d) rest b (i - d) s h1 h2 h3 h4 h5 hlen
          (not_not.mp (not_or.mp hc).1)
          (not_not.mp (not_or.mp (not_or.mp hc).2).1)
          (not_not.mp (not_or.mp (not_or.mp hc).2).2),
        show i - d + 1 = i + 1 - d from by omega]
      refine ih (by omega) _ ?_
      refine residual_SR buf d (b % 256) i _ _ ?_ hdi
      by_cases hu1 : ((b % 256 &&& 15) <<< 18 ||| (rest.getD 0 0 % 256 &&& 63) <<< 12
          ||| (rest.getD 1 0 % 256 &&& 63) <<< 6 ||| (rest.getD 2 0 % 256 &&& 63)) < 65536
      · have hs1 : s1 = bad_bytes buf 4 Cond.OVERLONG i c := if_pos hu1
        rw [hs1, if_pos hu1]
        exact bad_bytes_SR buf d .OVERLONG 4 i c s hR hdi
      · have hs1 : s1 = c := if_neg hu1
        rw [hs1, if_neg hu1]
        exact hR
  | case13 b rest i c ch h1 h2 h3 h4 h5 ih =>
      intro hdi s hR
      rw [step_illegal buf rest b i c h1 h2 h3 h4 h5,
        step_illegal (buf.drop d) rest b (i - d) s h1 h2 h3 h4 h5,
        show i - d + 1 = i + 1 - d from by omega]
      exact ih (by omega) _ (Or.inl (bad_byte_SR buf d .ENCODING i c s hR hdi))

/-! ### Frame lemmas: the emitter operations read the buffer only below
their index, so appending bytes after the end does not change them. -/

theorem getD_app (a t : List Nat) (j : Nat) (h : j < a.length) :
    (a ++ t).getD j 0 = a.getD j 0 := by
  simp [List.getD_eq_getElem?_getD, List.getElem?_append, h]

theorem slice_app (a t : List Nat) (o j : Nat) (ho : o ≤ a.length)
    (hj : j ≤ a.length) :
    ((a ++ t).drop o).take (j - o) = (a.drop o).take (j - o) := by
  rw [List.drop_append_of_le_length ho,
    List.take_append_of_le_length (by rw [List.length_drop]; omega)]

theorem flush_frame (a t : List Nat) (j : Nat) (s : St) (hj : j ≤ a.length) :
    flush_output (a ++ t) j s = flush_output a j s := by
  unfold flush_output
  by_cases h : s.buffer_out < j
  · rw [if_pos h, if_pos h, slice_app a t s.buffer_out j (by omega) hj]
  · rw [if_neg h, if_neg h]

theorem preface_frame (a t : List Nat) (c : Cond) (j : Nat) (s : St)
    (hj : j ≤ a.length) :
    bad_preface (a ++ t) c j s = bad_preface a c j s := by
  unfold bad_preface
  rw [flush_frame a t j s hj]

theorem bad_byte_frame (a t : List Nat) (c : Cond) (j : Nat) (s : St)
    (hj : j < a.length) :
    bad_byte (a ++ t) c j s = bad_byte a c j s := by
  unfold bad_byte
  rw [preface_frame a t c j s (Nat.le_of_lt hj), getD_app a t j hj]

theorem bad_bytes_frame (a t : List Nat) (c : Cond) :
    ∀ (n j : Nat) (s : St), j + n ≤ a.length →
      bad_bytes (a ++ t) n c j s = bad_bytes a n c j s := by
  intro n
  induction n with
  | zero => intro j s h; rfl
  | succ m ih =>
      intro j s h
      show bad_bytes (a ++ t) m c (j + 1) (bad_byte (a ++ t) c j s) = _
      rw [bad_byte_frame a t c j s (by omega), ih (j + 1) _ (by omega)]
      rfl

theorem marker_frame (a t : List Nat) (c : Cond) (j : Nat) (s : St)
    (hj : j ≤ a.length) :
    bad_marker (a ++ t) c j s = bad_marker a c j s := by
  unfold bad_marker
  rw [preface_frame a t c j s hj]

theorem residual_frame (a t : List Nat) (ch j : Nat) (s : St) (hj : j ≤ a.length) :
    residual (a ++ t) ch j s = residual a ch j s := by
  obtain ⟨o, nl, cr, ws, cc, out⟩ := s
  unfold residual
  dsimp only
  by_cases hmk : (ch == 10 && ws) = true
  · rw [if_pos hmk, if_pos hmk,
      marker_frame a t .TRAILING_WHITESPACE j (St.mk o (ch == 10) cr ws cc out) hj]
  · rw [if_neg hmk, if_neg hmk]

/-! ### Where the flushed cursor can sit after each operation -/

theorem flush_bo (buf : List Nat) (j : Nat) (s : St) :
    (flush_output buf j s).buffer_out = s.buffer_out ∨
      (flush_output buf j s).buffer_out = j := by
  unfold flush_output
  by_cases h : s.buffer_out < j
  · rw [if_pos h]
    exact Or.inr rfl
  · rw [if_neg h]
    exact Or.inl rfl

theorem preface_bo (buf : List Nat) (c : Cond) (j : Nat) (s : St) :
    (bad_preface buf c j s).buffer_out = s.buffer_out ∨
      (bad_preface buf c j s).buffer_out = j := by
  simp only [bad_preface]
  by_cases hd : c ≠ (flush_output buf j s).current_condition
  · rw [if_pos hd]
    exact flush_bo buf j s
  · rw [if_neg hd]
    exact flush_bo buf j s

theorem marker_bo (buf : List Nat) (c : Cond) (j : Nat) (s : St) :
    (bad_marker buf c j s).buffer_out = s.buffer_out ∨
      (bad_marker buf c j s).buffer_out = j := by
  simp only [bad_marker, emit]
  exact preface_bo buf c j s

theorem residual_bo (buf : List Nat) (ch j : Nat) (s : St) :
    (residual buf ch j s).buffer_out = s.buffer_out ∨
      (residual buf ch j s).buffer_out = j := by
  obtain ⟨o, nl, cr, ws, cc, out⟩ := s
  unfold residual
  dsimp only
  by_cases hmk : (ch == 10 && ws) = true
  · rw [if_pos hmk]
    by_cases hcr : (ch != 13) = true
    · rw [if_pos hcr]
      exact marker_bo buf .TRAILING_WHITESPACE j _
    · rw [if_neg hcr]
      exact marker_bo buf .TRAILING_WHITESPACE j _
  · rw [if_neg hmk]
    by_cases hcr : (ch != 13) = true
    · rw [if_pos hcr]
      exact Or.inl rfl
    · rw [if_neg hcr]
      exact Or.inl rfl

theorem bad_byte_bo (buf : List Nat) (c : Cond) (j : Nat) (s : St) :
    (bad_byte buf c j s).buffer_out = j + 1 := rfl

theorem bad_bytes_bo (buf : List Nat) (c : Cond) :
    ∀ (n j : Nat) (s : St), 0 < n →
      (bad_bytes buf n c j s).buffer_out = j + n := by
  intro n
  induction n with
  | zero => intro j s h; exact absurd h (by omega)
  | succ m ih =>
      intro j s _
      rcases Nat.eq_zero_or_pos m with hm | hm
      · subst hm
        rfl
      · show (bad_bytes buf m c (j + 1) (bad_byte buf c j s)).buffer_out = _
        rw [ih (j + 1) _ hm]
        omega

/-- A byte whose bit 6 is set is not continuation-patterned: multi-byte
lead bytes never satisfy the `(ch & 0xc0) == 0x80` test. -/
theorem lead_not_cont (ch : Nat) (h2 : ¬ ch &&& 64 = 0) : ¬ ch &&& 192 = 128 := by
  intro hc
  apply h2
  have h64 : (192 : Nat) &&& 64 = 64 := by decide
  have h1 : ch &&& 64 = ch &&& 192 &&& 64 := by
    rw [Nat.and_assoc, h64]
  rw [h1, hc]
  decide

/-- At an `early_out` (or at the end-of-buffer flush) whose index is at or
beyond the flushed cursor, the whole-buffer run and the cut run (`flush`
then cursor reset, i.e. the `memmove` resync) are in simulation at cut `i`. -/
theorem early_SplitR (a t : List Nat) (i : Nat) (c : St) (hi : i ≤ a.length)
    (hbo : c.buffer_out ≤ i) :
    SplitR i (a ++ t) c { flush_output a i c with buffer_out := 0 } := by
  by_cases h : c.buffer_out < i
  · refine Or.inr ?_
    have hs : flush_output a i c =
        { c with
          out := c.out ++ okReset c.current_condition
              ++ ((a.drop c.buffer_out).take (i - c.buffer_out)).map Item.raw,
          current_condition := .OK,
          buffer_out := i } := if_pos h
    rw [hs]
    refine ⟨⟨rfl, rfl, rfl⟩, h, rfl, rfl, ?_⟩
    rw [slice_app a t c.buffer_out i (by omega) hi]
  · have hs : flush_output a i c = c := if_neg h
    rw [hs]
    exact Or.inl ⟨⟨rfl, rfl, rfl⟩, by omega,
      by show (0 : Nat) = c.buffer_out - i; omega, rfl, rfl⟩

/-- Invariant transfer through the residual update at the bottom of the loop
body: `residual` can only leave the cursor in place or pull it back to the
current index. -/
theorem next_inv (a : List Nat) (ch i : Nat) (s1 : St) (hM : i ≤ a.length)
    (hbo : s1.buffer_out ≤ a.length)
    (hcont : ∀ j, i + 1 ≤ j → j < s1.buffer_out →
      a.getD j 0 % 256 &&& 192 = 128) :
    (residual a ch i s1).buffer_out ≤ a.length ∧
    (∀ j, i + 1 ≤ j → j < (residual a ch i s1).buffer_out →
      a.getD j 0 % 256 &&& 192 = 128) := by
  rcases residual_bo a ch i s1 with h | h
  · rw [h]
    exact ⟨hbo, hcont⟩
  · rw [h]
    exact ⟨hM, fun j hj1 hj2 => absurd hj2 (by omega)⟩

/-- Extension: scanning a buffer extended with further bytes `t` is the
same as scanning the original buffer to its end (or to its `early_out`),
then scanning the retained suffix with `t` appended from index 0 — the
`memmove` resync of `run_fd` loses nothing.  The invariant carried through
the loop: the flushed cursor stays inside the buffer, and any bytes between
the scan index and the cursor (the overshoot of `bad_bytes`) are
continuation-patterned, so no deferring lead byte ever sits below the
cursor. -/
theorem consumeLoop_extend (a t : List Nat) :
    ∀ (rem : List Nat) (i : Nat) (c : St), rem = a.drop i → i ≤ a.length →
      c.buffer_out ≤ a.length →
      (∀ j, i ≤ j → j < c.buffer_out → a.getD j 0 % 256 &&& 192 = 128) →
      consumeLoop (a ++ t) (rem ++ t) i c =
        consumeLoop ((consumeLoop a rem i c).2 ++ t)
          ((consumeLoop a rem i c).2 ++ t) 0 (consumeLoop a rem i c).1 := by
  intro rem i c
  induction rem, i, c using consumeLoop.induct a with
  | case1 i c =>
      intro hrem hi hbo hcont
      have hieq : i = a.length := by
        have h0 := List.length_drop i a
        rw [← hrem] at h0
        simp only [List.length_nil] at h0
        omega
      subst hieq
      rw [consumeLoop.eq_1]
      have hSR := consumeLoop_SR (a ++ t) a.length
        (by rw [List.length_append]; omega) ([] ++ t) a.length c (le_refl _) _
        (early_SplitR a t a.length c (le_refl _) hbo)
      have hdrop : (a ++ t).drop a.length = [] ++ t := by
        rw [List.nil_append, List.drop_left]
      rw [hdrop, Nat.sub_self] at hSR
      exact hSR
  | case2 b rest i c ch h1 s1 ih =>
      intro hrem hi hbo hcont
      obtain ⟨hrest, hilen, hlen2⟩ := drop_info a rest b i hrem
      rw [List.cons_append, step_ascii (a ++ t) (rest ++ t) b i c h1,
        step_ascii a rest b i c h1]
      have hsw : (if b % 256 < 32 ∧ b % 256 ≠ 10 ∧ b % 256 ≠ 9 then
            bad_byte (a ++ t) .CONTROL i c else c) =
          (if b % 256 < 32 ∧ b % 256 ≠ 10 ∧ b % 256 ≠ 9 then
            bad_byte a .CONTROL i c else c) := by
        by_cases hctl : b % 256 < 32 ∧ b % 256 ≠ 10 ∧ b % 256 ≠ 9
        · rw [if_pos hctl, if_pos hctl, bad_byte_frame a t .CONTROL i c hilen]
        · rw [if_neg hctl, if_neg hctl]
      rw [hsw, residual_frame a t (b % 256) i _ hi]
      have hb1 : s1.buffer_out ≤ a.length := by
        by_cases hctl : b % 256 < 32 ∧ b % 256 ≠ 10 ∧ b % 256 ≠ 9
        · have hs1 : s1 = bad_byte a Cond.CONTROL i c := if_pos hctl
          rw [hs1, bad_byte_bo]
          omega
        · have hs1 : s1 = c := if_neg hctl
          rw [hs1]
          exact hbo
      have hc1 : ∀ j, i + 1 ≤ j → j < s1.buffer_out →
          a.getD j 0 % 256 &&& 192 = 128 := by
        intro j hj1 hj2
        by_cases hctl : b % 256 < 32 ∧ b % 256 ≠ 10 ∧ b % 256 ≠ 9
        · have hs1 : s1 = bad_byte a Cond.CONTROL i c := if_pos hctl
          rw [hs1, bad_byte_bo] at hj2
          exact absurd hj1 (by omega)
        · have hs1 : s1 = c := if_neg hctl
          rw [hs1] at hj2
          exact hcont j (by omega) hj2
      have hnext := next_inv a (b % 256) i s1 hi hb1 hc1
      exact ih hrest (by omega) hnext.1 hnext.2
  | case3 b rest i c ch h1 h2 ih =>
      intro hrem hi hbo hcont
      obtain ⟨hrest, hilen, hlen2⟩ := drop_info a rest b i hrem
      rw [List.cons_append, step_cont (a ++ t) (rest ++ t) b i c h1 h2,
        step_cont a rest b i c h1 h2,
        bad_byte_frame a t .ENCODING i c hilen,
        residual_frame a t (b % 256) i _ hi]
      have hnext := next_inv a (b % 256) i (bad_byte a .ENCODING i c) hi
        (by rw [bad_byte_bo]; omega)
        (fun j hj1 hj2 => absurd hj1 (by rw [bad_byte_bo] at hj2; omega))
      exact ih hrest (by omega) hnext.1 hnext.2
  | case4 b rest i c ch h1 h2 h3 hlen =>
      intro hrem hi hbo hcont
      obtain ⟨hrest, hilen, hlen2⟩ := drop_info a rest b i hrem
      have hb : a.getD i 0 = b := by
        have hg := getD_drop a i 0
        rw [← hrem] at hg
        simpa using hg.symm
      have hboi : c.buffer_out ≤ i := by
        by_contra hgt
        have hcc := hcont i (le_refl i) (by omega)
        rw [hb] at hcc
        exact lead_not_cont (b % 256) h2 hcc
      rw [step_l2_defer a rest b i c h1 h2 h3 hlen]
      have hSR := consumeLoop_SR (a ++ t) i (by rw [List.length_append]; omega)
        ((b :: rest) ++ t) i c (le_refl _) _ (early_SplitR a t i c hi hboi)
      have hdrop : (a ++ t).drop i = (b :: rest) ++ t := by
        rw [List.drop_append_of_le_length hi, ← hrem]
      rw [hdrop, Nat.sub_self] at hSR
      exact hSR
  | case5 b rest i c ch h1 h2 h3 hlen ch1 hc ih =>
      intro hrem hi hbo hcont
      obtain ⟨hrest, hilen, hlen2⟩ := drop_info a rest b i hrem
      have hg0 : (rest ++ t).getD 0 0 = rest.getD 0 0 := getD_app rest t 0 (by omega)
      rw [List.cons_append,
        step_l2_bad (a ++ t) (rest ++ t) b i c h1 h2 h3
          (by rw [List.length_append]; omega) (by rw [hg0]; exact hc),
        step_l2_bad a rest b i c h1 h2 h3 hlen hc,
        bad_byte_frame a t .ENCODING i c hilen]
      exact ih hrest (by omega) (by rw [bad_byte_bo]; omega)
        (fun j hj1 hj2 => absurd hj1 (by rw [bad_byte_bo] at hj2; omega))
  | case6 b rest i c ch h1 h2 h3 hlen ch1 hc u s1 ih =>
      intro hrem hi hbo hcont
      obtain ⟨hrest, hilen, hlen2⟩ := drop_info a rest b i hrem
      have hg0 : (rest ++ t).getD 0 0 = rest.getD 0 0 := getD_app rest t 0 (by omega)
      have hA1 : a.getD (i + 1) 0 = rest.getD 0 0 := by
        rw [hrest, getD_drop]
      rw [List.cons_append,
        step_l2_ok (a ++ t) (rest ++ t) b i c h1 h2 h3
          (by rw [List.length_append]; omega) (by rw [hg0]; exact not_not.mp hc),
        step_l2_ok a rest b i c h1 h2 h3 hlen (not_not.mp hc), hg0]
      have hsw : (if ((b % 256 &&& 31) <<< 6 ||| (rest.getD 0 0 % 256 &&& 63)) < 128 then
            bad_bytes (a ++ t) 2 .OVERLONG i c
          else if ((b % 256 &&& 31) <<< 6 ||| (rest.getD 0 0 % 256 &&& 63)) < 160 then
            bad_bytes (a ++ t) 2 .HIGH_CONTROL i c
          else c) =
          (if ((b % 256 &&& 31) <<< 6 ||| (rest.getD 0 0 % 256 &&& 63)) < 128 then
            bad_bytes a 2 .OVERLONG i c
          else if ((b % 256 &&& 31) <<< 6 ||| (rest.getD 0 0 % 256 &&& 63)) < 160 then
            bad_bytes a 2 .HIGH_CONTROL i c
          else c) := by
        by_cases hu1 : ((b % 256 &&& 31) <<< 6 ||| (rest.getD 0 0 % 256 &&& 63)) < 128
        · rw [if_pos hu1, if_pos hu1, bad_bytes_frame a t .OVERLONG 2 i c (by omega)]
        · rw [if_neg hu1, if_neg hu1]
          by_cases hu2 : ((b % 256 &&& 31) <<< 6 ||| (rest.getD 0 0 % 256 &&& 63)) < 160
          · rw [if_pos hu2, if_pos hu2,
              bad_bytes_frame a t .HIGH_CONTROL 2 i c (by omega)]
          · rw [if_neg hu2, if_neg hu2]
      rw [hsw, residual_frame a t (b % 256) i _ hi]
      have hb1 : s1.buffer_out ≤ a.length := by
        by_cases hu1 : ((b % 256 &&& 31) <<< 6 ||| (rest.getD 0 0 % 256 &&& 63)) < 128
        · have hs1 : s1 = bad_bytes a 2 Cond.OVERLONG i c := if_pos hu1
          rw [hs1, bad_bytes_bo a Cond.OVERLONG 2 i c (by omega)]
          omega
        · by_cases hu2 : ((b % 256 &&& 31) <<< 6 ||| (rest.getD 0 0 % 256 &&& 63)) < 160
          · have hs1 : s1 = bad_bytes a 2 Cond.HIGH_CONTROL i c :=
              (if_neg hu1).trans (if_pos hu2)
            rw [hs1, bad_bytes_bo a Cond.HIGH_CONTROL 2 i c (by omega)]
            omega
          · have hs1 : s1 = c := (if_neg hu1).trans (if_neg hu2)
            rw [hs1]
            exact hbo
      have hc1 : ∀ j, i + 1 ≤ j → j < s1.buffer_out →
          a.getD j 0 % 256 &&& 192 = 128 := by
        intro j hj1 hj2
        by_cases hu1 : ((b % 256 &&& 31) <<< 6 ||| (rest.getD 0 0 % 256 &&& 63)) < 128
        · have hs1 : s1 = bad_bytes a 2 Cond.OVERLONG i c := if_pos hu1
          rw [hs1, bad_bytes_bo a Cond.OVERLONG 2 i c (by omega)] at hj2
          have hji : j = i + 1 := by omega
          rw [hji, hA1]
          exact not_not.mp hc
        · by_cases hu2 : ((b % 256 &&& 31) <<< 6 ||| (rest.getD 0 0 % 256 &&& 63)) < 160
          · have hs1 : s1 = bad_bytes a 2 Cond.HIGH_CONTROL i c :=
              (if_neg hu1).trans (if_pos hu2)
            rw [hs1, bad_bytes_bo a Cond.HIGH_CONTROL 2 i c (by omega)] at hj2
            have hji : j = i + 1 := by omega
            rw [hji, hA1]
            exact not_not.mp hc
          · have hs1 : s1 = c := (if_neg hu1).trans (if_neg hu2)
            rw [hs1] at hj2
            exact hcont j (by omega) hj2
      have hnext := next_inv a (b % 256) i s1 hi hb1 hc1
      exact ih hrest (by omega) hnext.1 hnext.2
  | case7 b rest i c ch h1 h2 h3 h4 hlen =>
      intro hrem hi hbo hcont
      obtain ⟨hrest, hilen, hlen2⟩ := drop_info a rest b i hrem
      have hb : a.getD i 0 = b := by
        have hg := getD_drop a i 0
        rw [← hrem] at hg
        simpa using hg.symm
      have hboi : c.buffer_out ≤ i := by
        by_contra hgt
        have hcc := hcont i (le_refl i) (by omega)
        rw [hb] at hcc
        exact lead_not_cont (b % 256) h2 hcc
      rw [step_l3_defer a rest b i c h1 h2 h3 h4 hlen]
      have hSR := consumeLoop_SR (a ++ t) i (by rw [List.length_append]; omega)
        ((b :: rest) ++ t) i c (le_refl _) _ (early_SplitR a t i c hi hboi)
      have hdrop : (a ++ t).drop i = (b :: rest) ++ t := by
        rw [List.drop_append_of_le_length hi, ← hrem]
      rw [hdrop, Nat.sub_self] at hSR
      exact hSR
  | case8 b rest i c ch h1 h2 h3 h4 hlen ch1 ch2 hc ih =>
      intro hrem hi hbo hcont
      obtain ⟨hrest, hilen, hlen2⟩ := drop_info a rest b i hrem
      have hg0 : (rest ++ t).getD 0 0 = rest.getD 0 0 := getD_app rest t 0 (by omega)
      have hg1 : (rest ++ t).getD 1 0 = rest.getD 1 0 := getD_app rest t 1 (by omega)
      rw [List.cons_append,
        step_l3_bad (a ++ t) (rest ++ t) b i c h1 h2 h3 h4
          (by rw [List.length_append]; omega) (by rw [hg0, hg1]; exact hc),
        step_l3_bad a rest b i c h1 h2 h3 h4 hlen hc,
        bad_byte_frame a t .ENCODING i c hilen]
      exact ih hrest (by omega) (by rw [bad_byte_bo]; omega)
        (fun j hj1 hj2 => absurd hj1 (by rw [bad_byte_bo] at hj2; omega))
  | case9 b rest i c ch h1 h2 h3 h4 hlen ch1 ch2 hc u s1 ih =>
      intro hrem hi hbo hcont
      obtain ⟨hrest, hilen, hlen2⟩ := drop_info a rest b i hrem
      have hg0 : (rest ++ t).getD 0 0 = rest.getD 0 0 := getD_app rest t 0 (by omega)
      have hg1 : (rest ++ t).getD 1 0 = rest.getD 1 0 := getD_app rest t 1 (by omega)
      have hA1 : a.getD (i + 1) 0 = rest.getD 0 0 := by
        rw [hrest, getD_drop]
      have hA2 : a.getD (i + 2) 0 = rest.getD 1 0 := by
        rw [hrest, getD_drop]
      have hcc1 := not_not.mp (not_or.mp hc).1
      have hcc2 := not_not.mp (not_or.mp hc).2
      rw [List.cons_append,
        step_l3_ok (a ++ t) (rest ++ t) b i c h1 h2 h3 h4
          (by rw [List.length_append]; omega) (by rw [hg0]; exact hcc1)
          (by rw [hg1]; exact hcc2),
        step_l3_ok a rest b i c h1 h2 h3 h4 hlen hcc1 hcc2, hg0, hg1]
      have hsw : (if ((b % 256 &&& 15) <<< 12 ||| (rest.getD 0 0 % 256 &&& 63) <<< 6
              ||| (rest.getD 1 0 % 256 &&& 63)) < 2048 then
            bad_bytes (a ++ t) 3 .OVERLONG i c else c) =
          (if ((b % 256 &&& 15) <<< 12 ||| (rest.getD 0 0 % 256 &&& 63) <<< 6
              ||| (rest.getD 1 0 % 256 &&& 63)) < 2048 then
            bad_bytes a 3 .OVERLONG i c else c) := by
        by_cases hu1 : ((b % 256 &&& 15) <<< 12 ||| (rest.getD 0 0 % 256 &&& 63) <<< 6
            ||| (rest.getD 1 0 % 256 &&& 63)) < 2048
        · rw [if_pos hu1, if_pos hu1, bad_bytes_frame a t .OVERLONG 3 i c (by omega)]
        · rw [if_neg hu1, if_neg hu1]
      rw [hsw, residual_frame a t (b % 256) i _ hi]
      have hb1 : s1.buffer_out ≤ a.length := by
        by_cases hu1 : ((b % 256 &&& 15) <<< 12 ||| (rest.getD 0 0 % 256 &&& 63) <<< 6
            ||| (rest.getD 1 0 % 256 &&& 63)) < 2048
        · have hs1 : s1 = bad_bytes a 3 Cond.OVERLONG i c := if_pos hu1
          rw [hs1, bad_bytes_bo a Cond.OVERLONG 3 i c (by omega)]
          omega
        · have hs1 : s1 = c := if_neg hu1
          rw [hs1]
          exact hbo
      have hc1 : ∀ j, i + 1 ≤ j → j < s1.buffer_out →
          a.getD j 0 % 256 &&& 192 = 128 := by
        intro j hj1 hj2
        by_cases hu1 : ((b % 256 &&& 15) <<< 12 ||| (rest.getD 0 0 % 256 &&& 63) <<< 6
            ||| (rest.getD 1 0 % 256 &&& 63)) < 2048
        · have hs1 : s1 = bad_bytes a 3 Cond.OVERLONG i c := if_pos hu1
          rw [hs1, bad_bytes_bo a Cond.OVERLONG 3 i c (by omega)] at hj2
          have hji : j = i + 1 ∨ j = i + 2 := by omega
          rcases hji with hji | hji
          · rw [hji, hA1]
            exact hcc1
          · rw [hji, hA2]
            exact hcc2
        · have hs1 : s1 = c := if_neg hu1
          rw [hs1] at hj2
          exact hcont j (by omega) hj2
      have hnext := next_inv a (b % 256) i s1 hi hb1 hc1
      exact ih hrest (by omega) hnext.1 hnext.2
  | case10 b rest i c ch h1 h2 h3 h4 h5 hlen =>
      intro hrem hi hbo hcont
      obtain ⟨hrest, hilen, hlen2⟩ := drop_info a rest b i hrem
      have hb : a.getD i 0 = b := by
        have hg := getD_drop a i 0
        rw [← hrem] at hg
        simpa using hg.symm
      have hboi : c.buffer_out ≤ i := by
        by_contra hgt
        have hcc := hcont i (le_refl i) (by omega)
        rw [hb] at hcc
        exact lead_not_cont (b % 256) h2 hcc
      rw [step_l4_defer a rest b i c h1 h2 h3 h4 h5 hlen]
      have hSR := consumeLoop_SR (a ++ t) i (by rw [List.length_append]; omega)
        ((b :: rest) ++ t) i c (le_refl _) _ (early_SplitR a t i c hi hboi)
      have hdrop : (a ++ t).drop i = (b :: rest) ++ t := by
        rw [List.drop_append_of_le_length hi, ← hrem]
      rw [hdrop, Nat.sub_self] at hSR
      exact hSR
  | case11 b rest i c ch h1 h2 h3 h4 h5 hlen ch1 ch2 ch3 hc ih =>
      intro hrem hi hbo hcont
      obtain ⟨hrest, hilen, hlen2⟩ := drop_info a rest b i hrem
      have hg0 : (rest ++ t).getD 0 0 = rest.getD 0 0 := getD_app rest t 0 (by omega)
      have hg1 : (rest ++ t).getD 1 0 = rest.getD 1 0 := getD_app rest t 1 (by omega)
      have hg2 : (rest ++ t).getD 2 0 = rest.getD 2 0 := getD_app rest t 2 (by omega)
      rw [List.cons_append,
        step_l4_bad (a ++ t) (rest ++ t) b i c h1 h2 h3 h4 h5
          (by rw [List.length_append]; omega) (by rw [hg0, hg1, hg2]; exact hc),
        step_l4_bad a rest b i c h1 h2 h3 h4 h5 hlen hc,
        bad_byte_frame a t .ENCODING i c hilen]
      exact ih hrest (by omega) (by rw [bad_byte_bo]; omega)
        (fun j hj1 hj2 => absurd hj1 (by rw [bad_byte_bo] at hj2; omega))
  | case12 b rest i c ch h1 h2 h3 h4 h5 hlen ch1 ch2 ch3 hc u s1 ih =>
      intro hrem hi hbo hcont
      obtain ⟨hrest, hilen, hlen2⟩ := drop_info a rest b i hrem
      have hg0 : (rest ++ t).getD 0 0 = rest.getD 0 0 := getD_app rest t 0 (by omega)
      have hg1 : (rest ++ t).getD 1 0 = rest.getD 1 0 := getD_app rest t 1 (by omega)
      have hg2 : (rest ++ t).getD 2 0 = rest.getD 2 0 := getD_app rest t 2 (by omega)
      have hA1 : a.getD (i + 1) 0 = rest.getD 0 0 := by
        rw [hrest, getD_drop]
      have hA2 : a.getD (i + 2) 0 = rest.getD 1 0 := by
        rw [hrest, getD_drop]
      have hA3 : a.getD (i + 3) 0 = rest.getD 2 0 := by
        rw [hrest, getD_drop]
      have hcc1 := not_not.mp (not_or.mp hc).1
      have hcc2 := not_not.mp (not_or.mp (not_or.mp hc).2).1
      have hcc3 := not_not.mp (not_or.mp (not_or.mp hc).2).2
      rw [List.cons_append,
        step_l4_ok (a ++ t) (rest ++ t) b i c h1 h2 h3 h4 h5
          (by rw [List.length_append]; omega) (by rw [hg0]; exact hcc1)
          (by rw [hg1]; exact hcc2) (by rw [hg2]; exact hcc3),
        step_l4_ok a rest b i c h1 h2 h3 h4 h5 hlen hcc1 hcc2 hcc3, hg0, hg1, hg2]
      have hsw : (if ((b % 256 &&& 15) <<< 18 ||| (rest.getD 0 0 % 256 &&& 63) <<< 12
              ||| (rest.getD 1 0 % 256 &&& 63) <<< 6
              ||| (rest.getD 2 0 % 256 &&& 63)) < 65536 then
            bad_bytes (a ++ t) 4 .OVERLONG i c else c) =
          (if ((b % 256 &&& 15) <<< 18 ||| (rest.getD 0 0 % 256 &&& 63) <<< 12
              ||| (rest.getD 1 0 % 256 &&& 63) <<< 6
              ||| (rest.getD 2 0 % 256 &&& 63)) < 65536 then
            bad_bytes a 4 .OVERLONG i c else c) := by
        by_cases hu1 : ((b % 256 &&& 15) <<< 18 ||| (rest.getD 0 0 % 256 &&& 63) <<< 12
            ||| (rest.getD 1 0 % 256 &&& 63) <<< 6
            ||| (rest.getD 2 0 % 256 &&& 63)) < 65536
        · rw [if_pos hu1, if_pos hu1, bad_bytes_frame a t .OVERLONG 4 i c (by omega)]
        · rw [if_neg hu1, if_neg hu1]
      rw [hsw, residual_frame a t (b % 256) i _ hi]
      have hb1 : s1.buffer_out ≤ a.length := by
        by_cases hu1 : ((b % 256 &&& 15) <<< 18 ||| (rest.getD 0 0 % 256 &&& 63) <<< 12
            ||| (rest.getD 1 0 % 256 &&& 63) <<< 6
            ||| (rest.getD 2 0 % 256 &&& 63)) < 65536
        · have hs1 : s1 = bad_bytes a 4 Cond.OVERLONG i c := if_pos hu1
          rw [hs1, bad_bytes_bo a Cond.OVERLONG 4 i c (by omega)]
          omega
        · have hs1 : s1 = c := if_neg hu1
          rw [hs1]
          exact hbo
      have hc1 : ∀ j, i + 1 ≤ j → j < s1.buffer_out →
          a.getD j 0 % 256 &&& 192 = 128 := by
        intro j hj1 hj2
        by_cases hu1 : ((b % 256 &&& 15) <<< 18 ||| (rest.getD 0 0 % 256 &&& 63) <<< 12
            ||| (rest.getD 1 0 % 256 &&& 63) <<< 6
            ||| (rest.getD 2 0 % 256 &&& 63)) < 65536
        · have hs1 : s1 = bad_bytes a 4 Cond.OVERLONG i c := if_pos hu1
          rw [hs1, bad_bytes_bo a Cond.OVERLONG 4 i c (by omega)] at hj2
          have hji : j = i + 1 ∨ j = i + 2 ∨ j = i + 3 := by omega
          rcases hji with hji | hji | hji
          · rw [hji, hA1]
            exact hcc1
          · rw [hji, hA2]
            exact hcc2
          · rw [hji, hA3]
            exact hcc3
        · have hs1 : s1 = c := if_neg hu1
          rw [hs1] at hj2
          exact hcont j (by omega) hj2
      have hnext := next_inv a (b % 256) i s1 hi hb1 hc1
      exact ih hrest (by omega) hnext.1 hnext.2
  | case13 b rest i c ch h1 h2 h3 h4 h5 ih =>
      intro hrem hi hbo hcont
      obtain ⟨hrest, hilen, hlen2⟩ := drop_info a rest b i hrem
      rw [List.cons_append, step_illegal (a ++ t) (rest ++ t) b i c h1 h2 h3 h4 h5,
        step_illegal a rest b i c h1 h2 h3 h4 h5,
        bad_byte_frame a t .ENCODING i c hilen]
      exact ih hrest (by omega) (by rw [bad_byte_bo]; omega)
        (fun j hj1 hj2 => absurd hj1 (by rw [bad_byte_bo] at hj2; omega))

/-- Every exit of the scan loop resets the flushed cursor to 0 (both the
end-of-buffer flush and `early_out` do). -/
theorem consumeLoop_bo (buf : List Nat) :
    ∀ (rem : List Nat) (i : Nat) (s : St),
      (consumeLoop buf rem i s).1.buffer_out = 0 := by
  intro rem i s
  induction rem, i, s using consumeLoop.induct buf with
  | case1 i s => rfl
  | case2 b rest i s ch h1 s1 ih =>
      rw [step_ascii buf rest b i s h1]
      exact ih
  | case3 b rest i s ch h1 h2 ih =>
      rw [step_cont buf rest b i s h1 h2]
      exact ih
  | case4 b rest i s ch h1 h2 h3 hlen =>
      rw [step_l2_defer buf rest b i s h1 h2 h3 hlen]
      rfl
  | case5 b rest i s ch h1 h2 h3 hlen ch1 hc ih =>
      rw [step_l2_bad buf rest b i s h1 h2 h3 hlen hc]
      exact ih
  | case6 b rest i s ch h1 h2 h3 hlen ch1 hc u s1 ih =>
      rw [step_l2_ok buf rest b i s h1 h2 h3 hlen (not_not.mp hc)]
      exact ih
  | case7 b rest i s ch h1 h2 h3 h4 hlen =>
      rw [step_l3_defer buf rest b i s h1 h2 h3 h4 hlen]
      rfl
  | case8 b rest i s ch h1 h2 h3 h4 hlen ch1 ch2 hc ih =>
      rw [step_l3_bad buf rest b i s h1 h2 h3 h4 hlen hc]
      exact ih
  | case9 b rest i s ch h1 h2 h3 h4 hlen ch1 ch2 hc u s1 ih =>
      rw [step_l3_ok buf rest b i s h1 h2 h3 h4 hlen
        (not_not.mp (not_or.mp hc).1) (not_not.mp (not_or.mp hc).2)]
      exact ih
  | case10 b rest i s ch h1 h2 h3 h4 h5 hlen =>
      rw [step_l4_defer buf rest b i s h1 h2 h3 h4 h5 hlen]
      rfl
  | case11 b rest i s ch h1 h2 h3 h4 h5 hlen ch1 ch2 ch3 hc ih =>
      rw [step_l4_bad buf rest b i s h1 h2 h3 h4 h5 hlen hc]
      exact ih
  | case12 b rest i s ch h1 h2 h3 h4 h5 hlen ch1 ch2 ch3 hc u s1 ih =>
      rw [step_l4_ok buf rest b i s h1 h2 h3 h4 h5 hlen
        (not_not.mp (not_or.mp hc).1)
        (not_not.mp (not_or.mp (not_or.mp hc).2).1)
        (not_not.mp (not_or.mp (not_or.mp hc).2).2)]
      exact ih
  | case13 b rest i s ch h1 h2 h3 h4 h5 ih =>
      rw [step_illegal buf rest b i s h1 h2 h3 h4 h5]
      exact ih

/-- Feeding more bytes after a buffer is the same as consuming the buffer
first and then consuming its retained suffix extended with the new bytes:
the whole `consume`/`early_out` cycle is append-compatible. -/
theorem consume_append (a t : List Nat) (s : St) (h : s.buffer_out = 0) :
    consume (a ++ t) s = consume ((consume a s).2 ++ t) (consume a s).1 :=
  consumeLoop_extend a t a 0 s (List.drop_zero a).symm (Nat.zero_le _)
    (by rw [h]; exact Nat.zero_le _)
    (fun j hj1 hj2 => absurd hj2 (by rw [h]; omega))

/-- The read loop on any nonempty chunk sequence equals a single `consume`
of the pending buffer followed by the flattened byte stream, both in the
final state and in the retained suffix. -/
theorem chunksLoop_flatten :
    ∀ (cs : List (List Nat)) (buf : List Nat) (s : St), s.buffer_out = 0 →
      cs ≠ [] → chunksLoop cs buf s = consume (buf ++ cs.flatten) s := by
  intro cs
  induction cs with
  | nil =>
      intro buf s h hne
      exact absurd rfl hne
  | cons c cs ih =>
      intro buf s h hne
      rcases eq_or_ne cs [] with hcs | hcs
      · subst hcs
        show chunksLoop [] (consume (buf ++ c) s).2 (consume (buf ++ c) s).1 = _
        simp only [chunksLoop]
        rw [List.flatten_cons, List.flatten_nil, List.append_nil]
      · show chunksLoop cs (consume (buf ++ c) s).2 (consume (buf ++ c) s).1 = _
        have hbo2 : (consume (buf ++ c) s).1.buffer_out = 0 :=
          consumeLoop_bo (buf ++ c) (buf ++ c) 0 s
        rw [ih _ _ hbo2 hcs,
          ← consume_append (buf ++ c) cs.flatten s h,
          List.flatten_cons, List.append_assoc]

/-- Splitting the reads into any nonempty chunk sequence gives the same
final program state as one single read of the flattened stream. -/
theorem run_fd_flatten (chunks : List (List Nat)) (h : chunks ≠ []) :
    run_fd chunks = run_fd [chunks.flatten] := by
  show terminalLoop (chunksLoop chunks [] initSt).2 (chunksLoop chunks [] initSt).2 0
      (chunksLoop chunks [] initSt).1 =
    terminalLoop (chunksLoop [chunks.flatten] [] initSt).2
      (chunksLoop [chunks.flatten] [] initSt).2 0
      (chunksLoop [chunks.flatten] [] initSt).1
  rw [chunksLoop_flatten chunks [] initSt rfl h,
    chunksLoop_flatten [chunks.flatten] [] initSt rfl (List.cons_ne_nil _ _)]
  have hfl : ([chunks.flatten] : List (List Nat)).flatten = chunks.flatten := by
    simp
  rw [hfl]

/-- C1.  Chunk invariance: for every input byte stream and every way of
splitting the reads into chunks of any sizes (including one byte at a
time), the annotated stdout byte stream — and in fact the entire final
program state — is identical to the one produced by reading the whole
input in a single chunk.  The `early_out` resync retains exactly the bytes
the scanner could not yet decode and the restarted scan continues in
lockstep with the whole-buffer scan. -/
theorem c1_chunk_invariance (chunks : List (List Nat)) :
    render (run_fd chunks).out = render (run_fd [chunks.flatten]).out ∧
    run_fd chunks = run_fd [chunks.flatten] := by
  rcases eq_or_ne chunks [] with h | h
  · subst h
    exact ⟨by decide, by decide⟩
  · exact ⟨by rw [run_fd_flatten chunks h], run_fd_flatten chunks h⟩

end Annofilter
